import Mathlib

/-!
# go-mutablestring: batched text edits applied by `Commit`

A shallow embedding of `mutable_string.go`.

Conventions of the embedding.

* A Go `string` is the sequence of its bytes, `GoString`; `len(s)` is the number of bytes.
  The conversions `[]rune(s)` and `string(runes)` are `decode` and `encode`, UTF-8 as the
  Go language defines it: a byte that starts no well-formed sequence decodes to U+FFFD
  and one byte is passed over.  A Go literal is written `str "..."`.
* Go `int` values are modelled by `Int`.  The only arithmetic of the program is
  `rawCursor + (Pos - rawCursor)` and `rawCursor + (rawToCopy + End - Pos)`, whose
  two's-complement results are `Pos` and `End` themselves (`wrapInt_cursor`), so
  wrap-around cannot change a result.
* A method with a pointer receiver returns the value of `error` together with the state
  of the receiver after the call.
* A slice expression on a slice is bounded by the capacity, not the length.  The capacity
  of `[]rune(s)` is `len + spare len` for a function `spare` the run time chooses; the
  slots behind the length hold the zero rune.  Bounds outside `0 ≤ low ≤ high ≤ cap` are
  a run-time panic, `Status.fault`.
-/

namespace MutableStringGo

/-- A Go `string`: its bytes, each a value `0..255`. -/
abbrev GoString := List Nat

/-- The replacement character U+FFFD (`utf8.RuneError`). -/
def runeError : Nat := 0xFFFD

/-- A Unicode scalar value: at most U+10FFFF and no surrogate. -/
def isScalar (r : Nat) : Prop := r ≤ 0x10FFFF ∧ ¬ (0xD800 ≤ r ∧ r ≤ 0xDFFF)

instance (r : Nat) : Decidable (isScalar r) :=
  inferInstanceAs (Decidable (_ ∧ _))

/-- The conversion `string(r)` of one rune: its UTF-8 bytes, those of U+FFFD for a value
that is no scalar value. -/
def encodeRune (r : Nat) : GoString :=
  if r ≤ 0x7F then [r]
  else if r ≤ 0x7FF then [0xC0 + r / 64, 0x80 + r % 64]
  else if r > 0x10FFFF ∨ (0xD800 ≤ r ∧ r ≤ 0xDFFF) then [0xEF, 0xBF, 0xBD]
  else if r ≤ 0xFFFF then [0xE0 + r / 4096, 0x80 + r / 64 % 64, 0x80 + r % 64]
  else [0xF0 + r / 262144, 0x80 + r / 4096 % 64, 0x80 + r / 64 % 64, 0x80 + r % 64]

/-- The conversion `string(runes)`: the UTF-8 bytes of the runes, one after the other. -/
def encode : List Nat → GoString
  | [] => []
  | r :: rs => encodeRune r ++ encode rs

/-- The first rune of a non-empty string and the number of bytes it takes: a shortest-form
UTF-8 sequence of a scalar value gives that value and its width, anything else gives
U+FFFD and width 1. -/
def decodeRune : GoString → Nat × Nat
  | [] => (runeError, 1)
  | b0 :: rest =>
    if b0 < 0x80 then (b0, 1)
    else if 0xC0 ≤ b0 ∧ b0 < 0xE0 then
      match rest with
      | b1 :: _ =>
        if 0x80 ≤ b1 ∧ b1 ≤ 0xBF then
          if 0x7F < b0 % 32 * 64 + b1 % 64 then (b0 % 32 * 64 + b1 % 64, 2)
          else (runeError, 1)
        else (runeError, 1)
      | _ => (runeError, 1)
    else if 0xE0 ≤ b0 ∧ b0 < 0xF0 then
      match rest with
      | b1 :: b2 :: _ =>
        if (0x80 ≤ b1 ∧ b1 ≤ 0xBF) ∧ (0x80 ≤ b2 ∧ b2 ≤ 0xBF) then
          if 0x7FF < b0 % 16 * 4096 + b1 % 64 * 64 + b2 % 64 ∧
              ¬ (0xD800 ≤ b0 % 16 * 4096 + b1 % 64 * 64 + b2 % 64 ∧
                b0 % 16 * 4096 + b1 % 64 * 64 + b2 % 64 ≤ 0xDFFF) then
            (b0 % 16 * 4096 + b1 % 64 * 64 + b2 % 64, 3)
          else (runeError, 1)
        else (runeError, 1)
      | _ => (runeError, 1)
    else if 0xF0 ≤ b0 ∧ b0 < 0xF8 then
      match rest with
      | b1 :: b2 :: b3 :: _ =>
        if (0x80 ≤ b1 ∧ b1 ≤ 0xBF) ∧ (0x80 ≤ b2 ∧ b2 ≤ 0xBF) ∧ (0x80 ≤ b3 ∧ b3 ≤ 0xBF) then
          if 0xFFFF < b0 % 8 * 262144 + b1 % 64 * 4096 + b2 % 64 * 64 + b3 % 64 ∧
              b0 % 8 * 262144 + b1 % 64 * 4096 + b2 % 64 * 64 + b3 % 64 ≤ 0x10FFFF then
            (b0 % 8 * 262144 + b1 % 64 * 4096 + b2 % 64 * 64 + b3 % 64, 4)
          else (runeError, 1)
        else (runeError, 1)
      | _ => (runeError, 1)
    else (runeError, 1)

/-- The runes of a string once `skip` bytes are passed over. -/
def decodeFrom : Nat → GoString → List Nat
  | _, [] => []
  | skip + 1, _ :: rest => decodeFrom skip rest
  | 0, b :: rest =>
    (decodeRune (b :: rest)).1 :: decodeFrom ((decodeRune (b :: rest)).2 - 1) rest

/-- The conversion `[]rune(s)`. -/
def decode (s : GoString) : List Nat := decodeFrom 0 s

/-- The string a Go literal denotes: the UTF-8 bytes of its characters. -/
def str (s : String) : GoString := encode (s.data.map Char.toNat)

/-- Go's `len(s)` on a string: the number of its bytes. -/
def len (s : GoString) : Int := (s.length : Int)

/-- The number of codepoints of a text, `len([]rune(s))`. -/
def runeCount (s : GoString) : Nat := (decode s).length

/-- The half-open interval `Range{Pos, End}` of the package. -/
structure Range where
  Pos : Int
  End : Int
  deriving DecidableEq, Repr

/-- A pending edit `overlay{span, text}`: replace `span` by `text`. -/
structure overlay where
  span : Range
  text : GoString
  deriving DecidableEq, Repr

/-- The struct `MutableString{initialText, overlays}`. -/
structure MutableString where
  initialText : GoString
  overlays : List overlay
  deriving DecidableEq, Repr

/-- What a call hands back: `nil`, an `error` carrying its message, or a run-time panic. -/
inductive Status where
  | ok
  | error (msg : String)
  | fault
  deriving DecidableEq, Repr

/-- The `NewMutableString(text)` constructor. -/
def NewMutableString (text : GoString) : MutableString :=
  { initialText := text, overlays := [] }

/-- The function `isValidRange(r, initialTextLength)`. -/
def isValidRange (r : Range) (initialTextLength : Int) : Bool :=
  if r.Pos > r.End then false
  else if r.Pos < 0 ∨ r.End > initialTextLength then false
  else true

/-- The method `ReplaceRange(r, text)`. -/
def ReplaceRange (ms : MutableString) (r : Range) (text : GoString) :
    Status × MutableString :=
  if !isValidRange r (len ms.initialText) then
    (Status.error "invalid or out of bounds range", ms)
  else
    (Status.ok, { ms with overlays := ms.overlays ++ [{ span := r, text := text }] })

/-- The method `Append(text)`. -/
def Append (ms : MutableString) (text : GoString) : Status × MutableString :=
  let r : Range := { Pos := len ms.initialText, End := len ms.initialText }
  (Status.ok, { ms with overlays := ms.overlays ++ [{ span := r, text := text }] })

/-- The method `Insert(pos, text)`. -/
def Insert (ms : MutableString) (pos : Int) (text : GoString) : Status × MutableString :=
  let r : Range := { Pos := pos, End := pos }
  if !isValidRange r (len ms.initialText) then
    (Status.error "invalid or out of bounds range", ms)
  else
    (Status.ok, { ms with overlays := ms.overlays ++ [{ span := r, text := text }] })

/-- The method `DeleteRange(r)`: its own validation, then a call of `ReplaceRange(r, "")`
whose returned error is dropped. -/
def DeleteRange (ms : MutableString) (r : Range) : Status × MutableString :=
  if !isValidRange r (len ms.initialText) then
    (Status.error "invalid or out of bounds range", ms)
  else
    (Status.ok, (ReplaceRange ms r []).2)

/-- The slice expression `rawText[lo:hi]` on a slice of capacity `cap`: `none`, a panic,
unless `0 ≤ lo ≤ hi ≤ cap`; the slots from the length up to the capacity read as the
zero rune. -/
def sliceRunes (rawText : List Nat) (cap : Nat) (lo hi : Int) : Option (List Nat) :=
  if 0 ≤ lo ∧ lo ≤ hi ∧ hi ≤ (cap : Int) then
    some (((rawText ++ List.replicate (cap - rawText.length) 0).take hi.toNat).drop lo.toNat)
  else none

/-- How the `for` loop of `Commit` ends. -/
inductive LoopExit where
  | overlap
  | fault
  | finished (rawCursor : Int) (builder : GoString)
  deriving DecidableEq, Repr

/-- The `for i, overlay := range ms.overlays` loop of `Commit`.  `prevOverlay` is `none`
at `i = 0` and the overlay at `i - 1` afterwards. -/
def commitLoop (rawText : List Nat) (cap : Nat) :
    Option overlay → Int → GoString → List overlay → LoopExit
  | _, rawCursor, builder, [] => LoopExit.finished rawCursor builder
  | prevOverlay, rawCursor, builder, o :: rest =>
    if (match prevOverlay with
        | some p => decide (o.span.Pos < p.span.End)
        | none => false) then LoopExit.overlap
    else
      let rawToCopy := o.span.Pos - rawCursor
      match sliceRunes rawText cap rawCursor (rawCursor + rawToCopy) with
      | none => LoopExit.fault
      | some rs =>
        commitLoop rawText cap (some o)
          (rawCursor + (rawToCopy + o.span.End - o.span.Pos))
          ((builder ++ encode rs) ++ o.text) rest

/-- The method `Commit()`.  `sortFn` stands for `sort.Sort(byStartIndex(ms.overlays))`,
which reorders `ms.overlays` in place before anything else happens; `spare` gives the
capacity the run time leaves behind the runes of `[]rune(ms.initialText)`. -/
def Commit (sortFn : List overlay → List overlay) (spare : Nat → Nat) (ms : MutableString) :
    Status × MutableString :=
  let sorted := sortFn ms.overlays
  let rawText := decode ms.initialText
  let cap := rawText.length + spare rawText.length
  match commitLoop rawText cap none 0 [] sorted with
  | LoopExit.overlap => (Status.error "ranges overlap", { ms with overlays := sorted })
  | LoopExit.fault => (Status.fault, { ms with overlays := sorted })
  | LoopExit.finished rawCursor builder =>
    if (rawText.length : Int) > rawCursor then
      match sliceRunes rawText cap rawCursor rawText.length with
      | none => (Status.fault, { ms with overlays := sorted })
      | some rs => (Status.ok, { initialText := builder ++ encode rs, overlays := [] })
    else
      (Status.ok, { initialText := builder, overlays := [] })

/-- Modelled from the spec: the type `byStartIndex` and its `Len`/`Swap`/`Less` methods
are not among the sources; the spec says the sequence is sorted "by ascending `span.Pos`"
with the tie-break left open.  This is the order `Less(i, j)` must then induce. -/
def byStartIndex (a b : overlay) : Prop := a.span.Pos ≤ b.span.Pos

instance : DecidableRel byStartIndex := fun a b =>
  inferInstanceAs (Decidable (a.span.Pos ≤ b.span.Pos))

instance : IsTotal overlay byStartIndex := ⟨fun a b => by unfold byStartIndex; omega⟩

instance : IsTrans overlay byStartIndex := ⟨fun a b c => by unfold byStartIndex; omega⟩

/-- Modelled from the spec: what `sort.Sort(byStartIndex(..))` guarantees, a rearrangement
of the same overlays into ascending `span.Pos`; nothing is assumed about equal starts. -/
def SortsByStart (sortFn : List overlay → List overlay) : Prop :=
  ∀ l, (sortFn l).Perm l ∧ (sortFn l).Sorted byStartIndex

/-- Modelled from the spec: one sort meeting `SortsByStart`, insertion sort, which is also
what `sort.Sort` runs on slices of at most twelve elements. -/
def insertionSortByStart (l : List overlay) : List overlay :=
  l.insertionSort byStartIndex

/-- No spare capacity: the slice `[]rune(s)` is exactly as long as its runes. -/
def exactCap (_ : Nat) : Nat := 0

/-- The capacity of the 32-rune buffer the run time converts a short string into. -/
def bufCap (n : Nat) : Nat := 32 - n

/-- The overlap test of `Commit` read positively: `b` starts at or after the end of `a`. -/
def noOverlap (a b : overlay) : Prop := a.span.End ≤ b.span.Pos

instance : DecidableRel noOverlap := fun a b =>
  inferInstanceAs (Decidable (a.span.End ≤ b.span.Pos))

/-- Specification side: a span is valid for a text of `n` codepoints,
`0 ≤ Pos ≤ End ≤ n`. -/
def validSpan (n : Nat) (o : overlay) : Prop :=
  0 ≤ o.span.Pos ∧ o.span.Pos ≤ o.span.End ∧ o.span.End ≤ (n : Int)

instance (n : Nat) (o : overlay) : Decidable (validSpan n o) :=
  inferInstanceAs (Decidable (_ ∧ _ ∧ _))

/-- Specification side: the codepoints `text[a, b)` of a text, as a text. -/
def textSlice (text : GoString) (a b : Int) : GoString :=
  encode (((decode text).take b.toNat).drop a.toNat)

/-- Specification side: where the untouched gap in front of each overlay starts, `0` for
the first overlay and the `End` of its predecessor for every other one. -/
def gapStarts (os : List overlay) : List Int := 0 :: os.map fun o => o.span.End

/-- Specification side: the text a successful commit is to produce from overlays
`o_1..o_n` in their sorted order,
`text[0, o_1.Pos) ++ o_1.text ++ text[o_1.End, o_2.Pos) ++ ... ++ o_n.text ++ text[o_n.End, end)`,
all offsets counting codepoints of `text`. -/
def spliceSpec (text : GoString) (os : List overlay) : GoString :=
  List.foldr (fun piece rest => piece ++ rest)
    (textSlice text ((gapStarts os).getLastD 0) (runeCount text))
    (List.zipWith (fun start o => textSlice text start o.span.Pos ++ o.text) (gapStarts os) os)

/-- Specification side: well-formed UTF-8, the encoding of a sequence of Unicode scalar
values. -/
def WellFormed (s : GoString) : Prop :=
  ∃ cs : List Nat, (∀ c ∈ cs, isScalar c) ∧ encode cs = s

/-- Go's `int` on a 64-bit target: the two's-complement value an exact result wraps to. -/
def wrapInt (x : Int) : Int :=
  (x + 9223372036854775808) % 18446744073709551616 - 9223372036854775808

/-- One call of the mutation API, with its arguments. -/
inductive Call where
  | replaceRange (r : Range) (text : GoString)
  | insert (pos : Int) (text : GoString)
  | append (text : GoString)
  | deleteRange (r : Range)
  deriving DecidableEq, Repr

/-- The receiver after one mutation call, whatever the call returned. -/
def applyCall (ms : MutableString) : Call → MutableString
  | Call.replaceRange r text => (ReplaceRange ms r text).2
  | Call.insert pos text => (Insert ms pos text).2
  | Call.append text => (Append ms text).2
  | Call.deleteRange r => (DeleteRange ms r).2

/-- The receiver after a sequence of mutation calls on `NewMutableString(t)`. -/
def runCalls (t : GoString) (calls : List Call) : MutableString :=
  calls.foldl applyCall (NewMutableString t)

/-! ## UTF-8 -/

theorem decodeFrom_length_le : ∀ (s : GoString) (k : Nat), (decodeFrom k s).length ≤ s.length := by
  intro s
  induction s with
  | nil => intro k; simp [decodeFrom]
  | cons b rest ih =>
    intro k
    cases k with
    | zero =>
      simp only [decodeFrom, List.length_cons]
      have := ih ((decodeRune (b :: rest)).2 - 1)
      omega
    | succ k =>
      simp only [decodeFrom, List.length_cons]
      have := ih k
      omega

theorem decodeFrom_skip_append : ∀ (a rest : GoString) (k : Nat), a.length = k →
    decodeFrom k (a ++ rest) = decodeFrom 0 rest := by
  intro a
  induction a with
  | nil => intro rest k h; simp at h; subst h; rfl
  | cons x a ih =>
    intro rest k h
    cases k with
    | zero => simp at h
    | succ k =>
      simp only [List.cons_append, decodeFrom]
      exact ih rest k (by simpa using h)

theorem decodeRune_encodeRune (r : Nat) (hr : isScalar r) (rest : GoString) :
    decodeRune (encodeRune r ++ rest) = (r, (encodeRune r).length) := by
  obtain ⟨h1, h2⟩ := hr
  unfold encodeRune
  by_cases c1 : r ≤ 0x7F
  · rw [if_pos c1]
    simp only [List.cons_append, List.nil_append, decodeRune, List.length_singleton]
    rw [if_pos (by omega)]
  · rw [if_neg c1]
    by_cases c2 : r ≤ 0x7FF
    · rw [if_pos c2]
      simp only [List.cons_append, List.nil_append, decodeRune, List.length_cons, List.length_nil]
      rw [if_neg (by omega), if_pos (by omega), if_pos (by omega), if_pos (by omega)]
      congr 1
      omega
    · rw [if_neg c2, if_neg (by omega)]
      by_cases c3 : r ≤ 0xFFFF
      · rw [if_pos c3]
        simp only [List.cons_append, List.nil_append, decodeRune, List.length_cons, List.length_nil]
        rw [if_neg (by omega), if_neg (by omega), if_pos (by omega), if_pos (by omega),
          if_pos (by omega)]
        congr 1
        omega
      · rw [if_neg c3]
        simp only [List.cons_append, List.nil_append, decodeRune, List.length_cons, List.length_nil]
        rw [if_neg (by omega), if_neg (by omega), if_neg (by omega), if_pos (by omega),
          if_pos (by omega), if_pos (by omega)]
        congr 1
        omega

theorem encodeRune_ne_nil (r : Nat) : encodeRune r ≠ [] := by
  unfold encodeRune
  split_ifs <;> simp

theorem decode_encodeRune_append (r : Nat) (hr : isScalar r) (rest : GoString) :
    decode (encodeRune r ++ rest) = r :: decode rest := by
  have hd := decodeRune_encodeRune r hr rest
  cases he : encodeRune r with
  | nil => exact absurd he (encodeRune_ne_nil r)
  | cons b tl =>
    rw [he, List.cons_append] at hd
    have e : decode (b :: (tl ++ rest)) =
        (decodeRune (b :: (tl ++ rest))).1 ::
          decodeFrom ((decodeRune (b :: (tl ++ rest))).2 - 1) (tl ++ rest) := rfl
    rw [List.cons_append, e, hd]
    simp only [List.length_cons, Nat.add_sub_cancel]
    rw [decodeFrom_skip_append tl rest tl.length rfl]
    rfl

theorem encode_append (a b : List Nat) : encode (a ++ b) = encode a ++ encode b := by
  induction a with
  | nil => rfl
  | cons r rs ih =>
    show encodeRune r ++ encode (rs ++ b) = (encodeRune r ++ encode rs) ++ encode b
    rw [ih, List.append_assoc]

/-- Decoding undoes encoding on scalar values, whatever bytes follow. -/
theorem decode_encode_append (cs : List Nat) (hcs : ∀ c ∈ cs, isScalar c) (rest : GoString) :
    decode (encode cs ++ rest) = cs ++ decode rest := by
  induction cs with
  | nil => rfl
  | cons c cs ih =>
    show decode ((encodeRune c ++ encode cs) ++ rest) = c :: (cs ++ decode rest)
    rw [List.append_assoc, decode_encodeRune_append c (hcs c (List.mem_cons_self _ _)),
      ih (fun x hx => hcs x (List.mem_cons_of_mem _ hx))]

theorem decode_encode (cs : List Nat) (hcs : ∀ c ∈ cs, isScalar c) :
    decode (encode cs) = cs := by
  have := decode_encode_append cs hcs []
  simpa [decode, decodeFrom] using this

theorem runeError_scalar : isScalar runeError := by decide

theorem decodeRune_scalar (s : GoString) : isScalar (decodeRune s).1 := by
  cases s with
  | nil => exact runeError_scalar
  | cons b0 rest =>
    simp only [decodeRune]
    split_ifs with h1 h2 h3 h4
    · unfold isScalar; simp only; omega
    · split
      · split_ifs with h5 h6
        · unfold isScalar; simp only; omega
        · exact runeError_scalar
        · exact runeError_scalar
      · exact runeError_scalar
    · split
      · split_ifs with h5 h6
        · unfold isScalar; simp only; omega
        · exact runeError_scalar
        · exact runeError_scalar
      · exact runeError_scalar
    · split
      · split_ifs with h5 h6
        · unfold isScalar; simp only; omega
        · exact runeError_scalar
        · exact runeError_scalar
      · exact runeError_scalar
    · exact runeError_scalar

theorem decodeFrom_scalar : ∀ (s : GoString) (k : Nat), ∀ r ∈ decodeFrom k s, isScalar r := by
  intro s
  induction s with
  | nil => intro k r hr; simp [decodeFrom] at hr
  | cons b rest ih =>
    intro k r hr
    cases k with
    | zero =>
      simp only [decodeFrom, List.mem_cons] at hr
      rcases hr with rfl | hr
      · exact decodeRune_scalar _
      · exact ih _ r hr
    | succ k =>
      simp only [decodeFrom] at hr
      exact ih k r hr

theorem decode_scalar (s : GoString) : ∀ r ∈ decode s, isScalar r := decodeFrom_scalar s 0


theorem isScalar_toNat (c : Char) : isScalar c.toNat := by
  have h := c.valid
  have e : c.toNat = c.val.toNat := rfl
  unfold isScalar
  rw [e]
  rcases h with h | ⟨h1, h2⟩
  · have : c.val.toNat < 55296 := h
    omega
  · have a : 57343 < c.val.toNat := h1
    have b : c.val.toNat < 1114112 := h2
    omega

/-- A Go literal is well-formed UTF-8. -/
theorem str_wellFormed (s : String) : WellFormed (str s) :=
  ⟨s.data.map Char.toNat, fun c hc => by
    obtain ⟨x, _, rfl⟩ := List.mem_map.1 hc
    exact isScalar_toNat x, rfl⟩

theorem wellFormed_nil : WellFormed [] :=
  ⟨[], fun c hc => absurd hc (List.not_mem_nil c), rfl⟩

theorem wellFormed_append (a b : GoString) (ha : WellFormed a) (hb : WellFormed b) :
    WellFormed (a ++ b) := by
  obtain ⟨ca, hca, rfl⟩ := ha
  obtain ⟨cb, hcb, rfl⟩ := hb
  refine ⟨ca ++ cb, fun c hc => ?_, encode_append ca cb⟩
  rcases List.mem_append.1 hc with h | h
  · exact hca c h
  · exact hcb c h

/-- Re-encoding the decoded text gives a well-formed text back. -/
theorem wellFormed_encode_decode (s : GoString) : encode (decode s) = s ↔ WellFormed s := by
  constructor
  · intro h
    exact ⟨decode s, decode_scalar s, h⟩
  · rintro ⟨cs, hcs, rfl⟩
    rw [decode_encode cs hcs]

/-- Codepoints add up behind a well-formed text. -/
theorem runeCount_append (a b : GoString) (ha : WellFormed a) :
    runeCount (a ++ b) = runeCount a + runeCount b := by
  obtain ⟨cs, hcs, rfl⟩ := ha
  unfold runeCount
  rw [decode_encode_append cs hcs b, decode_encode cs hcs, List.length_append]

theorem runeCount_encode (cs : List Nat) (hcs : ∀ c ∈ cs, isScalar c) :
    runeCount (encode cs) = cs.length := by
  unfold runeCount
  rw [decode_encode cs hcs]

/-- A text never has more codepoints than bytes. -/
theorem runeCount_le_len (text : GoString) : (runeCount text : Int) ≤ len text := by
  have := decodeFrom_length_le text 0
  unfold runeCount decode len
  omega

/-! ## Shared lemmas -/

/-- The two cursor computations of `Commit`, carried out in wrapping 64-bit arithmetic on
values an `int` can hold, give `Pos` (the upper slice bound) and `End` (the new cursor):
computing in `Int` loses nothing. -/
theorem wrapInt_cursor (c p e : Int)
    (hp : -9223372036854775808 ≤ p ∧ p < 9223372036854775808)
    (he : -9223372036854775808 ≤ e ∧ e < 9223372036854775808) :
    wrapInt (c + wrapInt (p - c)) = p ∧
    wrapInt (c + wrapInt (wrapInt (wrapInt (p - c) + e) - p)) = e := by
  unfold wrapInt
  omega

theorem isValidRange_eq_true (r : Range) (n : Int) :
    isValidRange r n = true ↔ (0 ≤ r.Pos ∧ r.Pos ≤ r.End ∧ r.End ≤ n) := by
  unfold isValidRange
  by_cases h1 : r.Pos > r.End
  · rw [if_pos h1]
    constructor
    · intro h; cases h
    · intro h; omega
  · rw [if_neg h1]
    by_cases h2 : r.Pos < 0 ∨ r.End > n
    · rw [if_pos h2]
      constructor
      · intro h; cases h
      · intro h; omega
    · rw [if_neg h2]
      constructor
      · intro _; omega
      · intro _; rfl

theorem isValidRange_eq_false (r : Range) (n : Int) :
    isValidRange r n = false ↔ (r.Pos < 0 ∨ r.End > n ∨ r.Pos > r.End) := by
  rw [← Bool.not_eq_true, isValidRange_eq_true]; omega

theorem insertionSortByStart_sorts : SortsByStart insertionSortByStart := fun l =>
  ⟨List.perm_insertionSort byStartIndex l, List.sorted_insertionSort byStartIndex l⟩


/-! ## The range predicate and the mutation calls -/

/-- C4: for all integers `Pos`, `End` and `length`, `isValidRange` answers true exactly when
`0 ≤ Pos ≤ End ≤ length`; hence a zero-width range is valid exactly at the positions
`0..length`, the full range `[0, length)` is valid for every length a text can have, and
on length 0 only `Pos = End = 0` is valid. -/
theorem isValidRange_iff :
    (∀ Pos End length : Int,
      isValidRange { Pos := Pos, End := End } length = true ↔
        (0 ≤ Pos ∧ Pos ≤ End ∧ End ≤ length)) ∧
    (∀ p length : Int,
      isValidRange { Pos := p, End := p } length = true ↔ (0 ≤ p ∧ p ≤ length)) ∧
    (∀ length : Int,
      isValidRange { Pos := 0, End := length } length = true ↔ 0 ≤ length) ∧
    (∀ Pos End : Int,
      isValidRange { Pos := Pos, End := End } 0 = true ↔ (Pos = 0 ∧ End = 0)) := by
  refine ⟨fun Pos End length => isValidRange_eq_true _ _, fun p length => ?_,
    fun length => ?_, fun Pos End => ?_⟩
  · rw [isValidRange_eq_true]; simp
  · rw [isValidRange_eq_true]; simp
  · rw [isValidRange_eq_true]; simp only; omega

/-- Whenever the range fails the validity predicate against the length the call measures,
`len(ms.initialText)` in bytes, `ReplaceRange`, `DeleteRange` and, for a range
`[pos, pos)`, `Insert` each return the error "invalid or out of bounds range" and hand
back the state untouched. -/
theorem rejected_of_invalid (ms : MutableString) (r : Range) (text : GoString)
    (h : isValidRange r (len ms.initialText) = false) :
    (r.Pos < 0 ∨ r.End > len ms.initialText ∨ r.Pos > r.End) ∧
    ReplaceRange ms r text = (Status.error "invalid or out of bounds range", ms) ∧
    DeleteRange ms r = (Status.error "invalid or out of bounds range", ms) ∧
    (∀ pos : Int, r = { Pos := pos, End := pos } →
      Insert ms pos text = (Status.error "invalid or out of bounds range", ms)) := by
  refine ⟨(isValidRange_eq_false _ _).1 h, ?_, ?_, ?_⟩
  · simp [ReplaceRange, h]
  · simp [DeleteRange, h]
  · intro pos hr
    subst hr
    simp [Insert, h]

/-- C5 at its failing input: the text "é" has one codepoint, so the range `[0, 2)` ends
beyond the text and `[2, 2)` lies beyond it, and both fail the validity predicate
against the text length 1; yet on a state that already holds an overlay `ReplaceRange`,
`DeleteRange` and `Insert(2, ..)` return `nil`, not the error, and hand back a state
with one more overlay. -/
theorem invalid_range_queued :
    runeCount (str "é") = 1 ∧
    isValidRange ⟨0, 2⟩ (runeCount (str "é") : Int) = false ∧
    isValidRange ⟨2, 2⟩ (runeCount (str "é") : Int) = false ∧
    ReplaceRange { initialText := str "é", overlays := [⟨⟨0, 1⟩, str "e"⟩] } ⟨0, 2⟩ (str "x") =
      (Status.ok,
        { initialText := str "é", overlays := [⟨⟨0, 1⟩, str "e"⟩, ⟨⟨0, 2⟩, str "x"⟩] }) ∧
    DeleteRange { initialText := str "é", overlays := [⟨⟨0, 1⟩, str "e"⟩] } ⟨0, 2⟩ =
      (Status.ok,
        { initialText := str "é", overlays := [⟨⟨0, 1⟩, str "e"⟩, ⟨⟨0, 2⟩, []⟩] }) ∧
    Insert { initialText := str "é", overlays := [⟨⟨0, 1⟩, str "e"⟩] } 2 (str "x") =
      (Status.ok,
        { initialText := str "é", overlays := [⟨⟨0, 1⟩, str "e"⟩, ⟨⟨2, 2⟩, str "x"⟩] }) ∧
    ReplaceRange { initialText := str "é", overlays := [⟨⟨0, 1⟩, str "e"⟩] } ⟨0, 2⟩ (str "x") ≠
      (Status.error "invalid or out of bounds range",
        { initialText := str "é", overlays := [⟨⟨0, 1⟩, str "e"⟩] }) := by
  decide

/-- C7: for a range that is valid, whether by the validity predicate as the call
evaluates it or by `0 ≤ Pos ≤ End ≤` the number of codepoints of the text, `ReplaceRange`
returns `nil`, leaves the text as it was, and the overlay sequence becomes the old one
followed by the single overlay `(span = r, text = text)`; the earlier overlays stay, in
their order. -/
theorem ReplaceRange_valid (ms : MutableString) (r : Range) (text : GoString)
    (h : isValidRange r (len ms.initialText) = true ∨
      (0 ≤ r.Pos ∧ r.Pos ≤ r.End ∧ r.End ≤ (runeCount ms.initialText : Int))) :
    ReplaceRange ms r text =
      (Status.ok, { initialText := ms.initialText,
                    overlays := ms.overlays ++ [{ span := r, text := text }] }) := by
  have hvalid : isValidRange r (len ms.initialText) = true := by
    rcases h with h | ⟨h0, h1, h2⟩
    · exact h
    · have := runeCount_le_len ms.initialText
      exact (isValidRange_eq_true _ _).2 ⟨h0, h1, by omega⟩
  simp [ReplaceRange, hvalid]

theorem ReplaceRange_valid_witness :
    isValidRange ⟨6, 11⟩ (len (str "hello world")) = true ∧
    ReplaceRange { initialText := str "hello world", overlays := [⟨⟨0, 5⟩, str "hi"⟩] }
        ⟨6, 11⟩ (str "planet") =
      (Status.ok, { initialText := str "hello world",
                    overlays := [⟨⟨0, 5⟩, str "hi"⟩, ⟨⟨6, 11⟩, str "planet"⟩] }) :=
  ⟨by decide,
   ReplaceRange_valid { initialText := str "hello world", overlays := [⟨⟨0, 5⟩, str "hi"⟩] }
     ⟨6, 11⟩ (str "planet") (Or.inl (by decide))⟩

/-- C9: `Insert(pos, text)` returns the same result and leaves the same state as
`ReplaceRange(Range{Pos: pos, End: pos}, text)` from the same starting state. -/
theorem Insert_eq_ReplaceRange (ms : MutableString) (pos : Int) (text : GoString) :
    Insert ms pos text = ReplaceRange ms { Pos := pos, End := pos } text := by
  simp [Insert, ReplaceRange]

/-- C10: `DeleteRange(r)` returns the same result and leaves the same state as
`ReplaceRange(r, "")`, for valid and invalid `r` alike; on an invalid `r` that result is
the error "invalid or out of bounds range" with no overlay appended. -/
theorem DeleteRange_eq_ReplaceRange (ms : MutableString) (r : Range) :
    DeleteRange ms r = ReplaceRange ms r [] ∧
    (isValidRange r (len ms.initialText) = false →
      DeleteRange ms r = (Status.error "invalid or out of bounds range", ms)) := by
  constructor
  · cases h : isValidRange r (len ms.initialText) <;> simp [DeleteRange, ReplaceRange, h]
  · intro h
    simp [DeleteRange, h]

theorem DeleteRange_eq_ReplaceRange_witness :
    isValidRange ⟨5, 3⟩ (len (str "hello world")) = false ∧
    DeleteRange (NewMutableString (str "hello world")) ⟨5, 3⟩ =
      (Status.error "invalid or out of bounds range", NewMutableString (str "hello world")) :=
  ⟨by decide,
   (DeleteRange_eq_ReplaceRange (NewMutableString (str "hello world")) ⟨5, 3⟩).2 (by decide)⟩

/-! ## Byte lengths where codepoint offsets are meant -/

/-- C6 at its failing input: the text "é" has one codepoint and two bytes; the range
`[0, 2)` is not within `0..1`, yet `ReplaceRange`, `DeleteRange` and (for `[2, 2)`)
`Insert` all return `nil` and queue the overlay, because the text is measured in bytes. -/
theorem ReplaceRange_measures_bytes :
    runeCount (str "é") = 1 ∧ len (str "é") = 2 ∧
    ¬ validSpan (runeCount (str "é")) ⟨⟨0, 2⟩, str "x"⟩ ∧
    ReplaceRange (NewMutableString (str "é")) ⟨0, 2⟩ (str "x") =
      (Status.ok, { initialText := str "é", overlays := [⟨⟨0, 2⟩, str "x"⟩] }) ∧
    DeleteRange (NewMutableString (str "é")) ⟨0, 2⟩ =
      (Status.ok, { initialText := str "é", overlays := [⟨⟨0, 2⟩, []⟩] }) ∧
    Insert (NewMutableString (str "é")) 2 (str "x") =
      (Status.ok, { initialText := str "é", overlays := [⟨⟨2, 2⟩, str "x"⟩] }) := by
  decide

/-! ## The loop of `Commit` on valid spans -/

theorem sliceRunes_of_bounds (rawText : List Nat) (cap : Nat) (lo hi : Int)
    (h0 : 0 ≤ lo) (h1 : lo ≤ hi) (h2 : hi ≤ (rawText.length : Int))
    (hcap : rawText.length ≤ cap) :
    sliceRunes rawText cap lo hi = some ((rawText.take hi.toNat).drop lo.toNat) := by
  unfold sliceRunes
  rw [if_pos ⟨h0, h1, by omega⟩, List.take_append_of_le_length (by omega)]

/-- From the second overlay on: with valid spans the loop never leaves the text, and it
runs to its end exactly when each overlay starts at or after the end of the one before. -/
theorem commitLoop_from_prev (text : GoString) (cap : Nat) (hcap : runeCount text ≤ cap) :
    ∀ (l : List overlay) (p : overlay) (b : GoString),
      validSpan (runeCount text) p → (∀ o ∈ l, validSpan (runeCount text) o) →
      commitLoop (decode text) cap (some p) p.span.End b l =
        if List.Chain noOverlap p l then
          LoopExit.finished ((l.map fun o => o.span.End).getLastD p.span.End)
            (b ++ List.foldr (fun piece rest => piece ++ rest) []
              (List.zipWith (fun start o => textSlice text start o.span.Pos ++ o.text)
                (p.span.End :: l.map fun o => o.span.End) l))
        else LoopExit.overlap := by
  intro l
  induction l with
  | nil =>
    intro p b _ _
    simp [commitLoop]
  | cons o rest ih =>
    intro p b hp hl
    have ho : validSpan (runeCount text) o := hl o (List.mem_cons_self _ _)
    have hrest : ∀ x ∈ rest, validSpan (runeCount text) x :=
      fun x hx => hl x (List.mem_cons_of_mem _ hx)
    by_cases hlt : o.span.Pos < p.span.End
    · have hno : ¬ List.Chain noOverlap p (o :: rest) := by
        intro hc
        have := (List.chain_cons.1 hc).1
        unfold noOverlap at this
        omega
      rw [if_neg hno]
      simp [commitLoop, hlt]
    · have hge : p.span.End ≤ o.span.Pos := by omega
      obtain ⟨hp0, hp1, hp2⟩ := hp
      obtain ⟨ho0, ho1, ho2⟩ := ho
      have hlen : ((decode text).length : Int) = (runeCount text : Int) := rfl
      have hslice : sliceRunes (decode text) cap p.span.End
          (p.span.End + (o.span.Pos - p.span.End)) =
          some (((decode text).take o.span.Pos.toNat).drop p.span.End.toNat) := by
        have e : p.span.End + (o.span.Pos - p.span.End) = o.span.Pos := by omega
        rw [e]
        exact sliceRunes_of_bounds _ _ _ _ (by omega) hge (by omega) hcap
      have hcur : p.span.End + (o.span.Pos - p.span.End + o.span.End - o.span.Pos) =
          o.span.End := by omega
      have step : commitLoop (decode text) cap (some p) p.span.End b (o :: rest) =
          commitLoop (decode text) cap (some o) o.span.End
            ((b ++ textSlice text p.span.End o.span.Pos) ++ o.text) rest := by
        simp only [commitLoop, hlt, decide_False, hslice, hcur]
        rfl
      rw [step, ih o _ ⟨ho0, ho1, ho2⟩ hrest]
      by_cases hc : List.Chain noOverlap o rest
      · have hc2 : List.Chain noOverlap p (o :: rest) := List.chain_cons.2 ⟨hge, hc⟩
        rw [if_pos hc, if_pos hc2]
        simp only [List.map_cons, List.getLastD_cons, List.zipWith_cons_cons, List.foldr_cons,
          List.append_assoc]
      · have hc2 : ¬ List.Chain noOverlap p (o :: rest) := fun h => hc (List.chain_cons.1 h).2
        rw [if_neg hc, if_neg hc2]

theorem foldr_append_tail (t : GoString) (ps : List GoString) :
    List.foldr (fun piece rest => piece ++ rest) t ps =
      List.foldr (fun piece rest => piece ++ rest) [] ps ++ t := by
  induction ps with
  | nil => simp
  | cons q qs ih => simp only [List.foldr_cons, ih, List.append_assoc]

theorem lastEnd_bounds (n : Nat) :
    ∀ (l : List overlay) (p : overlay), validSpan n p → (∀ o ∈ l, validSpan n o) →
      0 ≤ (l.map fun o => o.span.End).getLastD p.span.End ∧
      (l.map fun o => o.span.End).getLastD p.span.End ≤ (n : Int) := by
  intro l
  induction l with
  | nil =>
    intro p hp _
    obtain ⟨h0, h1, h2⟩ := hp
    simp only [List.map_nil, List.getLastD_nil]
    omega
  | cons o rest ih =>
    intro p _ hl
    simp only [List.map_cons, List.getLastD_cons]
    exact ih o (hl o (List.mem_cons_self _ _)) (fun x hx => hl x (List.mem_cons_of_mem _ hx))

/-- The code after the loop: with the cursor inside the text, the rest of the text is
appended and the call succeeds with no overlay left. -/
theorem commit_tail (text : GoString) (cap : Nat) (hcap : runeCount text ≤ cap)
    (c : Int) (b : GoString) (st : MutableString)
    (h0 : 0 ≤ c) (h1 : c ≤ (runeCount text : Int)) :
    (if ((decode text).length : Int) > c then
      match sliceRunes (decode text) cap c (decode text).length with
      | none => (Status.fault, st)
      | some rs => (Status.ok, ({ initialText := b ++ encode rs, overlays := [] } : MutableString))
    else
      (Status.ok, { initialText := b, overlays := [] })) =
    (Status.ok, { initialText := b ++ textSlice text c (runeCount text), overlays := [] }) := by
  have hlen : runeCount text = (decode text).length := rfl
  by_cases hgt : ((decode text).length : Int) > c
  · rw [if_pos hgt, sliceRunes_of_bounds _ _ _ _ h0 (by omega) (le_refl _) hcap]
    simp only [textSlice, hlen]
  · rw [if_neg hgt]
    have hc : c = ((decode text).length : Int) := by omega
    have hnil : textSlice text c (runeCount text) = [] := by
      unfold textSlice
      rw [hc, hlen]
      simp only [Int.toNat_ofNat, List.take_length, List.drop_length]
      rfl
    rw [hnil, List.append_nil]

/-- With every sorted span valid for the text, `Commit` either succeeds with the spliced
text and no overlay left, or reports the overlap and keeps the text. -/
theorem Commit_of_valid (sortFn : List overlay → List overlay) (spare : Nat → Nat)
    (ms : MutableString)
    (hv : ∀ o ∈ sortFn ms.overlays, validSpan (runeCount ms.initialText) o) :
    Commit sortFn spare ms =
      if List.Chain' noOverlap (sortFn ms.overlays) then
        (Status.ok, { initialText := spliceSpec ms.initialText (sortFn ms.overlays),
                      overlays := [] })
      else
        (Status.error "ranges overlap", { ms with overlays := sortFn ms.overlays }) := by
  unfold Commit
  generalize sortFn ms.overlays = l at hv
  have hcap : runeCount ms.initialText ≤
      (decode ms.initialText).length + spare (decode ms.initialText).length := by
    unfold runeCount
    omega
  cases l with
  | nil =>
    have hc : List.Chain' noOverlap ([] : List overlay) := List.chain'_nil
    rw [if_pos hc]
    simp only [commitLoop]
    rw [commit_tail ms.initialText _ hcap 0 [] _ (le_refl _) (by omega)]
    simp only [spliceSpec, gapStarts, List.map_nil, List.getLastD_cons, List.getLastD_nil,
      List.zipWith_nil_right, List.foldr_nil, List.nil_append]
  | cons o rest =>
    have ho : validSpan (runeCount ms.initialText) o := hv o (List.mem_cons_self _ _)
    have hrest : ∀ x ∈ rest, validSpan (runeCount ms.initialText) x :=
      fun x hx => hv x (List.mem_cons_of_mem _ hx)
    obtain ⟨ho0, ho1, ho2⟩ := ho
    have hlen : ((decode ms.initialText).length : Int) = (runeCount ms.initialText : Int) := rfl
    have hslice : sliceRunes (decode ms.initialText)
        ((decode ms.initialText).length + spare (decode ms.initialText).length)
        0 (0 + (o.span.Pos - 0)) =
        some (((decode ms.initialText).take o.span.Pos.toNat).drop (0 : Int).toNat) := by
      have e : (0 : Int) + (o.span.Pos - 0) = o.span.Pos := by omega
      rw [e]
      exact sliceRunes_of_bounds _ _ _ _ (le_refl _) ho0 (by omega) hcap
    have hcur : (0 : Int) + (o.span.Pos - 0 + o.span.End - o.span.Pos) = o.span.End := by omega
    have step : commitLoop (decode ms.initialText)
        ((decode ms.initialText).length + spare (decode ms.initialText).length)
        none 0 [] (o :: rest) =
        commitLoop (decode ms.initialText)
          ((decode ms.initialText).length + spare (decode ms.initialText).length)
          (some o) o.span.End
          (([] ++ textSlice ms.initialText 0 o.span.Pos) ++ o.text) rest := by
      simp only [commitLoop, hslice, hcur]
      rfl
    dsimp only
    rw [step, commitLoop_from_prev ms.initialText _ hcap rest o _ ⟨ho0, ho1, ho2⟩ hrest]
    by_cases hc : List.Chain noOverlap o rest
    · have hc2 : List.Chain' noOverlap (o :: rest) := hc
      obtain ⟨hb0, hb1⟩ := lastEnd_bounds (runeCount ms.initialText) rest o ⟨ho0, ho1, ho2⟩ hrest
      rw [if_pos hc, if_pos hc2]
      simp only []
      rw [commit_tail ms.initialText _ hcap _ _ _ hb0 hb1]
      simp only [spliceSpec, gapStarts, List.map_cons, List.getLastD_cons,
        List.zipWith_cons_cons, List.foldr_cons, List.nil_append]
      rw [foldr_append_tail (textSlice ms.initialText _ _)]
      simp only [List.append_assoc]
    · have hc2 : ¬ List.Chain' noOverlap (o :: rest) := hc
      rw [if_neg hc, if_neg hc2]

theorem chain_noOverlap_forall (n : Nat) :
    ∀ (l : List overlay) (a : overlay), List.Chain noOverlap a l →
      (∀ o ∈ l, validSpan n o) → ∀ b ∈ l, noOverlap a b := by
  intro l
  induction l with
  | nil => intro a _ _ b hb; cases hb
  | cons c rest ih =>
    intro a hc hv b hb
    obtain ⟨hac, hcr⟩ := List.chain_cons.1 hc
    rcases List.mem_cons.1 hb with rfl | hb
    · exact hac
    · have hcb := ih c hcr (fun o ho => hv o (List.mem_cons_of_mem _ ho)) b hb
      obtain ⟨_, hc1, _⟩ := hv c (List.mem_cons_self _ _)
      unfold noOverlap at hac hcb ⊢
      omega

/-- On valid spans the adjacent test of `Commit` decides pairwise non-overlap. -/
theorem chain'_noOverlap_iff_pairwise (n : Nat) :
    ∀ l : List overlay, (∀ o ∈ l, validSpan n o) →
      (List.Chain' noOverlap l ↔ List.Pairwise noOverlap l) := by
  intro l hv
  refine ⟨?_, List.Pairwise.chain'⟩
  induction l with
  | nil => intro _; exact List.Pairwise.nil
  | cons a rest ih =>
    intro hc
    have hrest : ∀ o ∈ rest, validSpan n o := fun o ho => hv o (List.mem_cons_of_mem _ ho)
    have hc1 : List.Chain noOverlap a rest := hc
    exact List.pairwise_cons.2
      ⟨chain_noOverlap_forall n rest a hc1 hrest, ih hrest (List.Chain'.tail hc)⟩

theorem not_pairwise_noOverlap_iff (l : List overlay) :
    ¬ List.Pairwise noOverlap l ↔
      ∃ i j, ∃ (_ : i < j) (hj : j < l.length),
        (l[j]).span.Pos < (l[i]).span.End := by
  rw [List.pairwise_iff_getElem]
  constructor
  · intro h
    by_contra hne
    apply h
    intro i j hi hj hij
    by_contra hR
    apply hne
    refine ⟨i, j, hij, hj, ?_⟩
    unfold noOverlap at hR
    omega
  · rintro ⟨i, j, hij, hj, hlt⟩ h
    have := h i j (by omega) hj hij
    unfold noOverlap at this
    omega

/-! ## `Commit` -/

/-- C1: when every pending span is valid for the text in codepoints and, in the sorted
order, each overlay starts at or after the end of the one just before it, `Commit` returns
`nil`, the overlay list is emptied, and the new text is
`text[0, o_1.Pos) ++ o_1.text ++ text[o_1.End, o_2.Pos) ++ ... ++ o_n.text ++ text[o_n.End, end)`
with `o_1..o_n` the sorted overlays and all offsets counting codepoints of the old text. -/
theorem Commit_splice (sortFn : List overlay → List overlay) (hs : SortsByStart sortFn)
    (spare : Nat → Nat) (ms : MutableString)
    (hv : ∀ o ∈ ms.overlays, validSpan (runeCount ms.initialText) o)
    (hadj : List.Chain' noOverlap (sortFn ms.overlays)) :
    Commit sortFn spare ms =
      (Status.ok, { initialText := spliceSpec ms.initialText (sortFn ms.overlays),
                    overlays := [] }) := by
  have hv2 : ∀ o ∈ sortFn ms.overlays, validSpan (runeCount ms.initialText) o :=
    fun o ho => hv o (((hs ms.overlays).1.mem_iff).1 ho)
  rw [Commit_of_valid sortFn spare ms hv2, if_pos hadj]

theorem sorted_example_chain :
    List.Chain' noOverlap
      (insertionSortByStart [⟨⟨6, 11⟩, str "planet"⟩, ⟨⟨0, 5⟩, str "hi"⟩]) := by
  rw [show insertionSortByStart [⟨⟨6, 11⟩, str "planet"⟩, ⟨⟨0, 5⟩, str "hi"⟩] =
    [⟨⟨0, 5⟩, str "hi"⟩, ⟨⟨6, 11⟩, str "planet"⟩] from by decide]
  exact List.Chain.cons (by decide) List.Chain.nil

theorem Commit_splice_witness :
    (∀ o ∈ [(⟨⟨6, 11⟩, str "planet"⟩ : overlay), ⟨⟨0, 5⟩, str "hi"⟩],
        validSpan (runeCount (str "hello world")) o) ∧
    List.Chain' noOverlap
      (insertionSortByStart [⟨⟨6, 11⟩, str "planet"⟩, ⟨⟨0, 5⟩, str "hi"⟩]) ∧
    Commit insertionSortByStart exactCap
        { initialText := str "hello world",
          overlays := [⟨⟨6, 11⟩, str "planet"⟩, ⟨⟨0, 5⟩, str "hi"⟩] } =
      (Status.ok,
        { initialText := spliceSpec (str "hello world")
            (insertionSortByStart [⟨⟨6, 11⟩, str "planet"⟩, ⟨⟨0, 5⟩, str "hi"⟩]),
          overlays := [] }) ∧
    spliceSpec (str "hello world")
        (insertionSortByStart [⟨⟨6, 11⟩, str "planet"⟩, ⟨⟨0, 5⟩, str "hi"⟩]) =
      str "hi planet" :=
  ⟨by decide, sorted_example_chain,
   Commit_splice insertionSortByStart insertionSortByStart_sorts exactCap
     { initialText := str "hello world",
       overlays := [⟨⟨6, 11⟩, str "planet"⟩, ⟨⟨0, 5⟩, str "hi"⟩] }
     (by decide) sorted_example_chain,
   by decide⟩

/-- C2 as stated fails: queued as `[3,8)` then `[0,5)` on "hello world", `Commit` returns
the overlap error and the overlay sequence it leaves is no longer in the order it had. -/
theorem Commit_error_reorders :
    (Commit insertionSortByStart exactCap
        { initialText := str "hello world",
          overlays := [⟨⟨3, 8⟩, str "planet"⟩, ⟨⟨0, 5⟩, str "hi"⟩] }).1 =
      Status.error "ranges overlap" ∧
    (Commit insertionSortByStart exactCap
        { initialText := str "hello world",
          overlays := [⟨⟨3, 8⟩, str "planet"⟩, ⟨⟨0, 5⟩, str "hi"⟩] }).2.overlays =
      [⟨⟨0, 5⟩, str "hi"⟩, ⟨⟨3, 8⟩, str "planet"⟩] ∧
    (Commit insertionSortByStart exactCap
        { initialText := str "hello world",
          overlays := [⟨⟨3, 8⟩, str "planet"⟩, ⟨⟨0, 5⟩, str "hi"⟩] }).2 ≠
      { initialText := str "hello world",
        overlays := [⟨⟨3, 8⟩, str "planet"⟩, ⟨⟨0, 5⟩, str "hi"⟩] } := by
  decide

/-- C2, amended: on every state on which `Commit` returns an error, the error is
"ranges overlap", the text afterwards is exactly the text before the call, and the
overlay sequence afterwards is the one the sort produced: the same overlays as before
the call, none lost and none added, arranged by ascending `Pos`. -/
theorem Commit_error_state (sortFn : List overlay → List overlay) (hs : SortsByStart sortFn)
    (spare : Nat → Nat) (ms : MutableString) (msg : String)
    (h : (Commit sortFn spare ms).1 = Status.error msg) :
    msg = "ranges overlap" ∧
    (Commit sortFn spare ms).2.initialText = ms.initialText ∧
    (Commit sortFn spare ms).2.overlays = sortFn ms.overlays ∧
    (Commit sortFn spare ms).2.overlays.Perm ms.overlays ∧
    (Commit sortFn spare ms).2.overlays.Sorted byStartIndex := by
  have key : msg = "ranges overlap" ∧
      (Commit sortFn spare ms).2 = { ms with overlays := sortFn ms.overlays } := by
    unfold Commit at h ⊢
    dsimp only at h ⊢
    cases hloop : commitLoop (decode ms.initialText)
        ((decode ms.initialText).length + spare (decode ms.initialText).length)
        none 0 [] (sortFn ms.overlays) with
    | overlap =>
      rw [hloop] at h
      dsimp only at h ⊢
      injection h with h
      exact ⟨h.symm, rfl⟩
    | fault =>
      rw [hloop] at h
      cases h
    | finished rawCursor builder =>
      rw [hloop] at h
      dsimp only at h
      by_cases hgt : ((decode ms.initialText).length : Int) > rawCursor
      · rw [if_pos hgt] at h
        cases hsl : sliceRunes (decode ms.initialText)
            ((decode ms.initialText).length + spare (decode ms.initialText).length)
            rawCursor (decode ms.initialText).length with
        | none => rw [hsl] at h; cases h
        | some rs => rw [hsl] at h; cases h
      · rw [if_neg hgt] at h
        cases h
  obtain ⟨hmsg, hst⟩ := key
  rw [hst]
  exact ⟨hmsg, rfl, rfl, (hs ms.overlays).1, (hs ms.overlays).2⟩

theorem Commit_error_state_witness :
    (Commit insertionSortByStart exactCap
        { initialText := str "hello world",
          overlays := [⟨⟨3, 8⟩, str "planet"⟩, ⟨⟨0, 5⟩, str "hi"⟩] }).1 =
      Status.error "ranges overlap" ∧
    (Commit insertionSortByStart exactCap
        { initialText := str "hello world",
          overlays := [⟨⟨3, 8⟩, str "planet"⟩, ⟨⟨0, 5⟩, str "hi"⟩] }).2.initialText =
      str "hello world" ∧
    (Commit insertionSortByStart exactCap
        { initialText := str "hello world",
          overlays := [⟨⟨3, 8⟩, str "planet"⟩, ⟨⟨0, 5⟩, str "hi"⟩] }).2.overlays.Perm
      [⟨⟨3, 8⟩, str "planet"⟩, ⟨⟨0, 5⟩, str "hi"⟩] :=
  ⟨by decide,
   (Commit_error_state insertionSortByStart insertionSortByStart_sorts exactCap
     { initialText := str "hello world",
       overlays := [⟨⟨3, 8⟩, str "planet"⟩, ⟨⟨0, 5⟩, str "hi"⟩] }
     "ranges overlap" (by decide)).2.1,
   (Commit_error_state insertionSortByStart insertionSortByStart_sorts exactCap
     { initialText := str "hello world",
       overlays := [⟨⟨3, 8⟩, str "planet"⟩, ⟨⟨0, 5⟩, str "hi"⟩] }
     "ranges overlap" (by decide)).2.2.2.1⟩

/-- C3: with every pending span valid for the text, `Commit` returns `nil` exactly when
the sorted overlays are pairwise non-overlapping (every later one starts at or after the
end of every earlier one, not only of its neighbour); it returns the error
"ranges overlap" exactly when some overlay starts before the end of an overlay placed
before it; no third outcome occurs; and overlays that merely abut never give an error. -/
theorem Commit_success_iff (sortFn : List overlay → List overlay) (hs : SortsByStart sortFn)
    (spare : Nat → Nat) (ms : MutableString)
    (hv : ∀ o ∈ ms.overlays, validSpan (runeCount ms.initialText) o) :
    ((Commit sortFn spare ms).1 = Status.ok ↔
      List.Pairwise noOverlap (sortFn ms.overlays)) ∧
    ((Commit sortFn spare ms).1 = Status.error "ranges overlap" ↔
      ∃ i j, ∃ (_ : i < j) (hj : j < (sortFn ms.overlays).length),
        ((sortFn ms.overlays)[j]).span.Pos < ((sortFn ms.overlays)[i]).span.End) ∧
    ((Commit sortFn spare ms).1 = Status.ok ∨
      (Commit sortFn spare ms).1 = Status.error "ranges overlap") ∧
    (List.Chain' (fun a b : overlay => b.span.Pos = a.span.End) (sortFn ms.overlays) →
      (Commit sortFn spare ms).1 = Status.ok) := by
  have hv2 : ∀ o ∈ sortFn ms.overlays, validSpan (runeCount ms.initialText) o :=
    fun o ho => hv o (((hs ms.overlays).1.mem_iff).1 ho)
  have hiff := chain'_noOverlap_iff_pairwise (runeCount ms.initialText) (sortFn ms.overlays) hv2
  have hC := Commit_of_valid sortFn spare ms hv2
  by_cases hc : List.Chain' noOverlap (sortFn ms.overlays)
  · rw [if_pos hc] at hC
    have hp : List.Pairwise noOverlap (sortFn ms.overlays) := hiff.1 hc
    have hne : ¬ ∃ i j, ∃ (_ : i < j) (hj : j < (sortFn ms.overlays).length),
        ((sortFn ms.overlays)[j]).span.Pos < ((sortFn ms.overlays)[i]).span.End :=
      fun hex => (not_pairwise_noOverlap_iff _).2 hex hp
    rw [hC]
    refine ⟨⟨fun _ => hp, fun _ => rfl⟩, ⟨fun h => ?_, fun h => absurd h hne⟩,
      Or.inl rfl, fun _ => rfl⟩
    cases h
  · rw [if_neg hc] at hC
    have hp : ¬ List.Pairwise noOverlap (sortFn ms.overlays) := fun h => hc (hiff.2 h)
    have hex := (not_pairwise_noOverlap_iff _).1 hp
    rw [hC]
    refine ⟨⟨fun h => ?_, fun h => absurd h hp⟩, ⟨fun _ => hex, fun _ => rfl⟩,
      Or.inr rfl, fun habut => ?_⟩
    · cases h
    · exact absurd (List.Chain'.imp (fun a b (hab : b.span.Pos = a.span.End) =>
        (show noOverlap a b from le_of_eq hab.symm)) habut) hc

theorem abutting_example_chain :
    List.Chain' (fun a b : overlay => b.span.Pos = a.span.End)
      (insertionSortByStart [⟨⟨5, 11⟩, str " planet"⟩, ⟨⟨0, 5⟩, str "hi"⟩]) := by
  rw [show insertionSortByStart [⟨⟨5, 11⟩, str " planet"⟩, ⟨⟨0, 5⟩, str "hi"⟩] =
    [⟨⟨0, 5⟩, str "hi"⟩, ⟨⟨5, 11⟩, str " planet"⟩] from by decide]
  exact List.Chain.cons (by decide) List.Chain.nil

theorem Commit_success_iff_witness :
    (∀ o ∈ [(⟨⟨5, 11⟩, str " planet"⟩ : overlay), ⟨⟨0, 5⟩, str "hi"⟩],
        validSpan (runeCount (str "hello world")) o) ∧
    (Commit insertionSortByStart exactCap
        { initialText := str "hello world",
          overlays := [⟨⟨5, 11⟩, str " planet"⟩, ⟨⟨0, 5⟩, str "hi"⟩] }).1 = Status.ok :=
  ⟨by decide,
   (Commit_success_iff insertionSortByStart insertionSortByStart_sorts exactCap
     { initialText := str "hello world",
       overlays := [⟨⟨5, 11⟩, str " planet"⟩, ⟨⟨0, 5⟩, str "hi"⟩] }
     (by decide)).2.2.2 abutting_example_chain⟩

theorem sliceRunes_past_e_acute (cap : Nat) (h : 2 ≤ cap) :
    sliceRunes [233] cap 0 (0 + (2 - 0)) = some [233, 0] := by
  obtain ⟨k, rfl⟩ : ∃ k, cap = k + 2 := ⟨cap - 2, by omega⟩
  unfold sliceRunes
  have h1 : (0 : Int) ≤ 0 ∧ (0 : Int) ≤ 0 + (2 - 0) ∧
      (0 : Int) + (2 - 0) ≤ ((k + 2 : Nat) : Int) := by omega
  have e : k + 2 - ([233] : List Nat).length = k + 1 := by simp
  rw [if_pos h1, e, List.replicate_succ]
  rfl

theorem sliceRunes_past_e_acute_none (cap : Nat) (h : ¬ 2 ≤ cap) :
    sliceRunes [233] cap 0 (0 + (2 - 0)) = none := by
  unfold sliceRunes
  have h1 : ¬ ((0 : Int) ≤ 0 ∧ (0 : Int) ≤ 0 + (2 - 0) ∧
      (0 : Int) + (2 - 0) ≤ (cap : Int)) := by omega
  rw [if_neg h1]

/-- The state after `Append("!")` on the text "é", committed with any spare capacity:
with fewer than two slots the slice `rawText[0:2]` is a panic, with two or more it reads
a zero rune behind the text and the call returns `nil` with the text "é\x00!". -/
theorem Commit_after_Append_e_acute (spare : Nat → Nat) :
    Commit insertionSortByStart spare
        { initialText := str "é", overlays := [⟨⟨2, 2⟩, str "!"⟩] } =
      if 2 ≤ 1 + spare 1 then (Status.ok, { initialText := str "é\x00!", overlays := [] })
      else (Status.fault, { initialText := str "é", overlays := [⟨⟨2, 2⟩, str "!"⟩] }) := by
  have hd : decode (str "é") = [233] := by decide
  have hsrt : insertionSortByStart [(⟨⟨2, 2⟩, str "!"⟩ : overlay)] = [⟨⟨2, 2⟩, str "!"⟩] := rfl
  have hloop : commitLoop [233] (1 + spare 1) none 0 [] [⟨⟨2, 2⟩, str "!"⟩] =
      if 2 ≤ 1 + spare 1 then LoopExit.finished 2 (str "é\x00!") else LoopExit.fault := by
    by_cases h : 2 ≤ 1 + spare 1
    · rw [if_pos h]
      simp only [commitLoop, sliceRunes_past_e_acute _ h]
      decide
    · rw [if_neg h]
      simp only [commitLoop, sliceRunes_past_e_acute_none _ h]
      rfl
  simp only [Commit, hd, hsrt, List.length_singleton, hloop]
  by_cases h : 2 ≤ 1 + spare 1
  · rw [if_pos h, if_pos h]
    have hgt : ¬ (((1 : Nat) : Int) > 2) := by omega
    simp only [hgt, if_false]
  · rw [if_neg h, if_neg h]

/-- C8 at its failing input: on the text "é" (one codepoint, two bytes) `Append("!")`
queues the span `[2, 2)` instead of `[1, 1)`, so it is not `Insert(1, "!")`, and the
following `Commit` asks for `rawText[0:2]` of a one-rune text: with no spare capacity it
panics, with the 32-rune buffer it returns `nil` with the text "é\x00!", and whatever the
capacity it does not return `nil` with the text "é!". -/
theorem Append_measures_bytes :
    runeCount (str "é") = 1 ∧
    Append (NewMutableString (str "é")) (str "!") =
      (Status.ok, { initialText := str "é", overlays := [⟨⟨2, 2⟩, str "!"⟩] }) ∧
    Append (NewMutableString (str "é")) (str "!") ≠
      Insert (NewMutableString (str "é")) 1 (str "!") ∧
    (Commit insertionSortByStart exactCap
      (Append (NewMutableString (str "é")) (str "!")).2).1 = Status.fault ∧
    Commit insertionSortByStart bufCap (Append (NewMutableString (str "é")) (str "!")).2 =
      (Status.ok, { initialText := str "é\x00!", overlays := [] }) ∧
    (∀ spare : Nat → Nat,
      Commit insertionSortByStart spare (Append (NewMutableString (str "é")) (str "!")).2 ≠
        (Status.ok, { initialText := str "é!", overlays := [] })) := by
  refine ⟨by decide, by decide, by decide, by decide, by decide, ?_⟩
  intro spare
  have hst : (Append (NewMutableString (str "é")) (str "!")).2 =
      { initialText := str "é", overlays := [⟨⟨2, 2⟩, str "!"⟩] } := by decide
  rw [hst, Commit_after_Append_e_acute spare]
  by_cases h : 2 ≤ 1 + spare 1
  · rw [if_pos h]; decide
  · rw [if_neg h]; decide

/-! ## Commit after no call and after one call -/

theorem sort_nil (sortFn : List overlay → List overlay) (hs : SortsByStart sortFn) :
    sortFn [] = [] :=
  List.Perm.eq_nil (hs []).1

theorem sort_singleton (sortFn : List overlay → List overlay) (hs : SortsByStart sortFn)
    (o : overlay) : sortFn [o] = [o] :=
  List.perm_singleton.1 (hs [o]).1

/-- With nothing queued `Commit` succeeds, leaves nothing queued, and the text it leaves
is the old text decoded and encoded again. -/
theorem Commit_nil (sortFn : List overlay → List overlay) (hs : SortsByStart sortFn)
    (spare : Nat → Nat) (t : GoString) :
    Commit sortFn spare { initialText := t, overlays := [] } =
      (Status.ok, { initialText := encode (decode t), overlays := [] }) := by
  have hv : ∀ o ∈ sortFn ({ initialText := t, overlays := [] } : MutableString).overlays,
      validSpan (runeCount ({ initialText := t, overlays := [] } : MutableString).initialText)
        o := by
    intro o ho
    rw [sort_nil sortFn hs] at ho
    cases ho
  rw [Commit_of_valid sortFn spare _ hv]
  simp only [sort_nil sortFn hs]
  rw [if_pos List.chain'_nil]
  have hspec : spliceSpec t [] = encode (decode t) := by
    simp only [spliceSpec, gapStarts, List.map_nil, List.getLastD_cons, List.getLastD_nil,
      List.zipWith_nil_right, List.foldr_nil, textSlice, Int.toNat_ofNat, Int.toNat_zero,
      List.drop_zero, runeCount, List.take_length]
  rw [hspec]

/-- With one valid overlay queued `Commit` succeeds with the text in front of the span,
the replacement, and the text behind the span. -/
theorem Commit_single (sortFn : List overlay → List overlay) (hs : SortsByStart sortFn)
    (spare : Nat → Nat) (t : GoString) (o : overlay) (hv : validSpan (runeCount t) o) :
    Commit sortFn spare { initialText := t, overlays := [o] } =
      (Status.ok,
        { initialText :=
            textSlice t 0 o.span.Pos ++ o.text ++ textSlice t o.span.End (runeCount t),
          overlays := [] }) := by
  have hv2 : ∀ x ∈ sortFn ({ initialText := t, overlays := [o] } : MutableString).overlays,
      validSpan (runeCount ({ initialText := t, overlays := [o] } : MutableString).initialText)
        x := by
    intro x hx
    rw [sort_singleton sortFn hs] at hx
    rcases List.mem_singleton.1 hx with rfl
    exact hv
  rw [Commit_of_valid sortFn spare _ hv2]
  simp only [sort_singleton sortFn hs]
  rw [if_pos (List.chain'_singleton o)]
  simp only [spliceSpec, gapStarts, List.map_cons, List.map_nil, List.getLastD_cons,
    List.getLastD_nil, List.zipWith_cons_cons, List.zipWith_nil_right, List.foldr_cons,
    List.foldr_nil, List.append_assoc]

theorem isValidRange_of_codepoints (t : GoString) (r : Range)
    (hr : 0 ≤ r.Pos ∧ r.Pos ≤ r.End ∧ r.End ≤ (runeCount t : Int)) :
    isValidRange r (len t) = true := by
  obtain ⟨h0, h1, h2⟩ := hr
  have := runeCount_le_len t
  exact (isValidRange_eq_true _ _).2 ⟨h0, h1, by omega⟩

/-- C11: on a text `t` with nothing queued and a range `r` with
`0 ≤ r.Pos ≤ r.End ≤` the number of codepoints of `t`, `DeleteRange(r)` returns `nil` and
the `Commit` after it returns `nil` with the text `t[0, r.Pos) ++ t[r.End, end)`. -/
theorem DeleteRange_then_Commit (sortFn : List overlay → List overlay)
    (hs : SortsByStart sortFn) (spare : Nat → Nat) (t : GoString) (r : Range)
    (hr : 0 ≤ r.Pos ∧ r.Pos ≤ r.End ∧ r.End ≤ (runeCount t : Int)) :
    (DeleteRange { initialText := t, overlays := [] } r).1 = Status.ok ∧
    Commit sortFn spare (DeleteRange { initialText := t, overlays := [] } r).2 =
      (Status.ok,
        { initialText := textSlice t 0 r.Pos ++ textSlice t r.End (runeCount t),
          overlays := [] }) := by
  have hvalid := isValidRange_of_codepoints t r hr
  have hdel : DeleteRange { initialText := t, overlays := [] } r =
      (Status.ok, { initialText := t, overlays := [{ span := r, text := [] }] }) := by
    simp [DeleteRange, ReplaceRange, hvalid]
  rw [hdel]
  refine ⟨rfl, ?_⟩
  rw [Commit_single sortFn hs spare t { span := r, text := [] } hr]
  simp only [List.append_nil]

theorem DeleteRange_then_Commit_witness :
    (DeleteRange { initialText := str "hello world", overlays := [] } ⟨5, 11⟩).1 = Status.ok ∧
    Commit insertionSortByStart exactCap
        (DeleteRange { initialText := str "hello world", overlays := [] } ⟨5, 11⟩).2 =
      (Status.ok,
        { initialText := textSlice (str "hello world") 0 5 ++
            textSlice (str "hello world") 11 (runeCount (str "hello world")),
          overlays := [] }) ∧
    textSlice (str "hello world") 0 5 ++
        textSlice (str "hello world") 11 (runeCount (str "hello world")) = str "hello" ∧
    textSlice (str "hello world") 0 6 ++
        textSlice (str "hello world") 11 (runeCount (str "hello world")) = str "hello " :=
  ⟨(DeleteRange_then_Commit insertionSortByStart insertionSortByStart_sorts exactCap
      (str "hello world") ⟨5, 11⟩ (by decide)).1,
   (DeleteRange_then_Commit insertionSortByStart insertionSortByStart_sorts exactCap
      (str "hello world") ⟨5, 11⟩ (by decide)).2,
   by decide, by decide⟩

/-- C12: on a text `t` with nothing queued, a position `0 ≤ pos ≤` the number of
codepoints of `t` and a string `s`, `Insert(pos, s)` returns `nil` and the `Commit` after
it returns `nil` with the text `t[0, pos) ++ s ++ t[pos, end)`. -/
theorem Insert_then_Commit (sortFn : List overlay → List overlay)
    (hs : SortsByStart sortFn) (spare : Nat → Nat) (t : GoString) (pos : Int) (s : GoString)
    (hpos : 0 ≤ pos ∧ pos ≤ (runeCount t : Int)) :
    (Insert { initialText := t, overlays := [] } pos s).1 = Status.ok ∧
    Commit sortFn spare (Insert { initialText := t, overlays := [] } pos s).2 =
      (Status.ok,
        { initialText := textSlice t 0 pos ++ s ++ textSlice t pos (runeCount t),
          overlays := [] }) := by
  have hr : 0 ≤ pos ∧ pos ≤ pos ∧ pos ≤ (runeCount t : Int) := ⟨hpos.1, le_refl _, hpos.2⟩
  have hvalid := isValidRange_of_codepoints t { Pos := pos, End := pos } hr
  have hins : Insert { initialText := t, overlays := [] } pos s =
      (Status.ok,
        { initialText := t, overlays := [{ span := { Pos := pos, End := pos }, text := s }] }) := by
    simp [Insert, hvalid]
  rw [hins]
  refine ⟨rfl, ?_⟩
  rw [Commit_single sortFn hs spare t { span := { Pos := pos, End := pos }, text := s } hr]

theorem Insert_then_Commit_witness :
    (Insert { initialText := str " world", overlays := [] } 0 (str "hello")).1 = Status.ok ∧
    Commit insertionSortByStart exactCap
        (Insert { initialText := str " world", overlays := [] } 0 (str "hello")).2 =
      (Status.ok,
        { initialText := textSlice (str " world") 0 0 ++ str "hello" ++
            textSlice (str " world") 0 (runeCount (str " world")),
          overlays := [] }) ∧
    textSlice (str " world") 0 0 ++ str "hello" ++
        textSlice (str " world") 0 (runeCount (str " world")) = str "hello world" :=
  ⟨(Insert_then_Commit insertionSortByStart insertionSortByStart_sorts exactCap
      (str " world") 0 (str "hello") (by decide)).1,
   (Insert_then_Commit insertionSortByStart insertionSortByStart_sorts exactCap
      (str " world") 0 (str "hello") (by decide)).2,
   by decide⟩

/-! ## Commit on a clean state, and ill-formed bytes -/

/-- C13 as stated fails: the text of the single byte `0xFF` holds no encoded codepoint;
`Commit` with nothing queued returns `nil` but leaves the three bytes of U+FFFD in its
place, whatever the capacity. -/
theorem Commit_rewrites_ill_formed :
    Commit insertionSortByStart exactCap { initialText := [0xFF], overlays := [] } =
      (Status.ok, { initialText := [0xEF, 0xBF, 0xBD], overlays := [] }) ∧
    Commit insertionSortByStart bufCap { initialText := [0xFF], overlays := [] } =
      (Status.ok, { initialText := [0xEF, 0xBF, 0xBD], overlays := [] }) ∧
    (Commit insertionSortByStart exactCap
      { initialText := [0xFF], overlays := [] }).2.initialText ≠ [0xFF] := by
  decide

/-- C13, amended: for every text, `Commit` with no pending overlay returns `nil` and
leaves the overlay sequence empty; the text it leaves is the old text decoded and encoded
again, which is exactly the old text if and only if the old text is well-formed UTF-8.
On a well-formed text the whole state is unchanged. -/
theorem Commit_no_overlays (sortFn : List overlay → List overlay)
    (hs : SortsByStart sortFn) (spare : Nat → Nat) (t : GoString) :
    (Commit sortFn spare { initialText := t, overlays := [] }).1 = Status.ok ∧
    (Commit sortFn spare { initialText := t, overlays := [] }).2.overlays = [] ∧
    (Commit sortFn spare { initialText := t, overlays := [] }).2.initialText =
      encode (decode t) ∧
    ((Commit sortFn spare { initialText := t, overlays := [] }).2.initialText = t ↔
      WellFormed t) ∧
    (WellFormed t →
      Commit sortFn spare (NewMutableString t) = (Status.ok, NewMutableString t)) := by
  have h := Commit_nil sortFn hs spare t
  refine ⟨by rw [h], by rw [h], by rw [h], ?_, ?_⟩
  · rw [h]
    exact wellFormed_encode_decode t
  · intro hw
    show Commit sortFn spare { initialText := t, overlays := [] } = _
    rw [h, (wellFormed_encode_decode t).2 hw]
    rfl

theorem Commit_no_overlays_witness :
    WellFormed (str "hello world") ∧
    Commit insertionSortByStart exactCap (NewMutableString (str "hello world")) =
      (Status.ok, NewMutableString (str "hello world")) :=
  ⟨str_wellFormed "hello world",
   (Commit_no_overlays insertionSortByStart insertionSortByStart_sorts exactCap
     (str "hello world")).2.2.2.2 (str_wellFormed "hello world")⟩

theorem Commit_ok_overlays (sortFn : List overlay → List overlay) (spare : Nat → Nat)
    (ms : MutableString)
    (h : (Commit sortFn spare ms).1 = Status.ok) : (Commit sortFn spare ms).2.overlays = [] := by
  unfold Commit at h ⊢
  dsimp only at h ⊢
  cases hloop : commitLoop (decode ms.initialText)
      ((decode ms.initialText).length + spare (decode ms.initialText).length)
      none 0 [] (sortFn ms.overlays) with
  | overlap => rw [hloop] at h; cases h
  | fault => rw [hloop] at h; cases h
  | finished rawCursor builder =>
    rw [hloop] at h
    dsimp only at h ⊢
    by_cases hgt : ((decode ms.initialText).length : Int) > rawCursor
    · rw [if_pos hgt] at h ⊢
      cases hsl : sliceRunes (decode ms.initialText)
          ((decode ms.initialText).length + spare (decode ms.initialText).length)
          rawCursor (decode ms.initialText).length with
      | none => rw [hsl] at h; cases h
      | some rs => rfl
    · rw [if_neg hgt]

theorem sliceRunes_scalar (rawText : List Nat) (cap : Nat) (lo hi : Int) (rs : List Nat)
    (hraw : ∀ r ∈ rawText, isScalar r) (h : sliceRunes rawText cap lo hi = some rs) :
    ∀ r ∈ rs, isScalar r := by
  unfold sliceRunes at h
  split at h
  · injection h with h
    subst h
    intro r hr
    have h1 := List.mem_of_mem_take (List.mem_of_mem_drop hr)
    rcases List.mem_append.1 h1 with h2 | h2
    · exact hraw r h2
    · rw [List.eq_of_mem_replicate h2]
      decide
  · cases h

theorem wellFormed_encode (rs : List Nat) (h : ∀ r ∈ rs, isScalar r) : WellFormed (encode rs) :=
  ⟨rs, h, rfl⟩

/-- The loop only ever appends re-encoded runes and overlay texts: with well-formed
overlay texts the builder stays well-formed. -/
theorem commitLoop_wellFormed (rawText : List Nat) (cap : Nat)
    (hraw : ∀ r ∈ rawText, isScalar r) :
    ∀ (l : List overlay) (prev : Option overlay) (c : Int) (b : GoString),
      WellFormed b → (∀ o ∈ l, WellFormed o.text) →
      ∀ (c2 : Int) (b2 : GoString),
        commitLoop rawText cap prev c b l = LoopExit.finished c2 b2 → WellFormed b2 := by
  intro l
  induction l with
  | nil =>
    intro prev c b hb _ c2 b2 h
    simp only [commitLoop] at h
    injection h with h1 h2
    rw [← h2]
    exact hb
  | cons o rest ih =>
    intro prev c b hb hl c2 b2 h
    simp only [commitLoop] at h
    split at h
    · cases h
    · split at h
      · cases h
      · next rs hrs =>
        refine ih _ _ _ ?_ (fun x hx => hl x (List.mem_cons_of_mem _ hx)) c2 b2 h
        exact wellFormed_append _ _
          (wellFormed_append _ _ hb
            (wellFormed_encode rs (sliceRunes_scalar _ _ _ _ rs hraw hrs)))
          (hl o (List.mem_cons_self _ _))

/-- With well-formed overlay texts a successful `Commit` leaves a well-formed text. -/
theorem Commit_ok_wellFormed (sortFn : List overlay → List overlay)
    (hs : SortsByStart sortFn) (spare : Nat → Nat) (ms : MutableString)
    (hw : ∀ o ∈ ms.overlays, WellFormed o.text)
    (h : (Commit sortFn spare ms).1 = Status.ok) :
    WellFormed (Commit sortFn spare ms).2.initialText := by
  have hw2 : ∀ o ∈ sortFn ms.overlays, WellFormed o.text :=
    fun o ho => hw o (((hs ms.overlays).1.mem_iff).1 ho)
  have hraw := decode_scalar ms.initialText
  unfold Commit at h ⊢
  dsimp only at h ⊢
  cases hloop : commitLoop (decode ms.initialText)
      ((decode ms.initialText).length + spare (decode ms.initialText).length)
      none 0 [] (sortFn ms.overlays) with
  | overlap => rw [hloop] at h; cases h
  | fault => rw [hloop] at h; cases h
  | finished rawCursor builder =>
    have hb := commitLoop_wellFormed _ _ hraw _ _ _ _ wellFormed_nil hw2 _ _ hloop
    rw [hloop] at h
    dsimp only at h ⊢
    by_cases hgt : ((decode ms.initialText).length : Int) > rawCursor
    · rw [if_pos hgt] at h ⊢
      cases hsl : sliceRunes (decode ms.initialText)
          ((decode ms.initialText).length + spare (decode ms.initialText).length)
          rawCursor (decode ms.initialText).length with
      | none => rw [hsl] at h; cases h
      | some rs =>
        exact wellFormed_append _ _ hb
          (wellFormed_encode rs (sliceRunes_scalar _ _ _ _ rs hraw hsl))
    · rw [if_neg hgt]
      exact hb

/-- C14 as stated fails: `NewMutableString("")` with `Insert(0, "\xff")` commits to the
text of the single byte `0xFF`, written as it is; the second `Commit` right after it
returns `nil` but changes that text to the three bytes of U+FFFD. -/
theorem Commit_twice_rewrites :
    (Insert (NewMutableString []) 0 [0xFF]).1 = Status.ok ∧
    Commit insertionSortByStart exactCap (Insert (NewMutableString []) 0 [0xFF]).2 =
      (Status.ok, { initialText := [0xFF], overlays := [] }) ∧
    Commit insertionSortByStart exactCap
        (Commit insertionSortByStart exactCap (Insert (NewMutableString []) 0 [0xFF]).2).2 =
      (Status.ok, { initialText := [0xEF, 0xBF, 0xBD], overlays := [] }) ∧
    (Commit insertionSortByStart exactCap
        (Commit insertionSortByStart exactCap (Insert (NewMutableString []) 0 [0xFF]).2).2).2 ≠
      (Commit insertionSortByStart exactCap (Insert (NewMutableString []) 0 [0xFF]).2).2 := by
  decide

/-- C14, amended: on every state on which `Commit` returns `nil`, the overlay sequence
afterwards is empty, and a second `Commit` right after it returns `nil` again and leaves
the overlay sequence empty; it leaves the text exactly as it is if and only if that text
is well-formed UTF-8, which it is whenever every overlay text of the first call was
well-formed, and then the second call leaves the whole state unchanged. -/
theorem Commit_twice (sortFn : List overlay → List overlay) (hs : SortsByStart sortFn)
    (spare : Nat → Nat) (ms : MutableString) (h : (Commit sortFn spare ms).1 = Status.ok) :
    (Commit sortFn spare ms).2.overlays = [] ∧
    (Commit sortFn spare (Commit sortFn spare ms).2).1 = Status.ok ∧
    (Commit sortFn spare (Commit sortFn spare ms).2).2.overlays = [] ∧
    ((Commit sortFn spare (Commit sortFn spare ms).2).2.initialText =
        (Commit sortFn spare ms).2.initialText ↔
      WellFormed (Commit sortFn spare ms).2.initialText) ∧
    ((∀ o ∈ ms.overlays, WellFormed o.text) →
      Commit sortFn spare (Commit sortFn spare ms).2 =
        (Status.ok, (Commit sortFn spare ms).2)) := by
  have hov := Commit_ok_overlays sortFn spare ms h
  have hst : (Commit sortFn spare ms).2 =
      { initialText := (Commit sortFn spare ms).2.initialText, overlays := [] } := by
    cases hc : (Commit sortFn spare ms).2 with
    | mk txt ovs =>
      rw [hc] at hov
      simp only at hov
      rw [hov]
  have h2 := Commit_nil sortFn hs spare (Commit sortFn spare ms).2.initialText
  rw [← hst] at h2
  refine ⟨hov, by rw [h2], by rw [h2], ?_, ?_⟩
  · rw [h2]
    exact wellFormed_encode_decode _
  · intro hw
    have hwf := Commit_ok_wellFormed sortFn hs spare ms hw h
    rw [h2, (wellFormed_encode_decode _).2 hwf, ← hst]

theorem Commit_twice_witness :
    (Commit insertionSortByStart exactCap
      { initialText := str "hello world", overlays := [⟨⟨0, 5⟩, str "hi"⟩] }).1 = Status.ok ∧
    (∀ o ∈ [(⟨⟨0, 5⟩, str "hi"⟩ : overlay)], WellFormed o.text) ∧
    Commit insertionSortByStart exactCap
        (Commit insertionSortByStart exactCap
          { initialText := str "hello world", overlays := [⟨⟨0, 5⟩, str "hi"⟩] }).2 =
      (Status.ok,
        (Commit insertionSortByStart exactCap
          { initialText := str "hello world", overlays := [⟨⟨0, 5⟩, str "hi"⟩] }).2) ∧
    (Commit insertionSortByStart exactCap
      { initialText := str "hello world", overlays := [⟨⟨0, 5⟩, str "hi"⟩] }).2 =
      { initialText := str "hi world", overlays := [] } :=
  ⟨by decide,
   fun o ho => by
     rcases List.mem_singleton.1 ho with rfl
     exact str_wellFormed "hi",
   (Commit_twice insertionSortByStart insertionSortByStart_sorts exactCap
     { initialText := str "hello world", overlays := [⟨⟨0, 5⟩, str "hi"⟩] }
     (by decide)).2.2.2.2
     (fun o ho => by
       rcases List.mem_singleton.1 ho with rfl
       exact str_wellFormed "hi"),
   by decide⟩
/-! ## States reached through the mutation calls -/

theorem applyCall_invariant (t : GoString) (ms : MutableString) (c : Call)
    (h : ms.initialText = t ∧
      ∀ o ∈ ms.overlays, 0 ≤ o.span.Pos ∧ o.span.Pos ≤ o.span.End ∧ o.span.End ≤ len t) :
    (applyCall ms c).initialText = t ∧
      ∀ o ∈ (applyCall ms c).overlays,
        0 ≤ o.span.Pos ∧ o.span.Pos ≤ o.span.End ∧ o.span.End ≤ len t := by
  obtain ⟨ht, hov⟩ := h
  have happend : ∀ (r : Range) (text : GoString),
      (0 ≤ r.Pos ∧ r.Pos ≤ r.End ∧ r.End ≤ len t) →
      ∀ o ∈ ms.overlays ++ [{ span := r, text := text }],
        0 ≤ o.span.Pos ∧ o.span.Pos ≤ o.span.End ∧ o.span.End ≤ len t := by
    intro r text hr o ho
    rcases List.mem_append.1 ho with ho | ho
    · exact hov o ho
    · rcases List.mem_singleton.1 ho with rfl
      exact hr
  cases c with
  | replaceRange r text =>
    cases hval : isValidRange r (len ms.initialText) with
    | false =>
      have e : applyCall ms (Call.replaceRange r text) = ms := by
        simp [applyCall, ReplaceRange, hval]
      rw [e]; exact ⟨ht, hov⟩
    | true =>
      have hr := (isValidRange_eq_true _ _).1 hval
      rw [ht] at hr
      have e : applyCall ms (Call.replaceRange r text) =
          { ms with overlays := ms.overlays ++ [{ span := r, text := text }] } := by
        simp [applyCall, ReplaceRange, hval]
      rw [e]; exact ⟨ht, happend r text hr⟩
  | insert pos text =>
    cases hval : isValidRange { Pos := pos, End := pos } (len ms.initialText) with
    | false =>
      have e : applyCall ms (Call.insert pos text) = ms := by
        simp [applyCall, Insert, hval]
      rw [e]; exact ⟨ht, hov⟩
    | true =>
      have hr := (isValidRange_eq_true _ _).1 hval
      rw [ht] at hr
      have e : applyCall ms (Call.insert pos text) =
          { ms with overlays :=
              ms.overlays ++ [{ span := { Pos := pos, End := pos }, text := text }] } := by
        simp [applyCall, Insert, hval]
      rw [e]; exact ⟨ht, happend _ text hr⟩
  | append text =>
    have hlen : (0 : Int) ≤ len t := by unfold len; omega
    have hr : 0 ≤ len t ∧ len t ≤ len t ∧ len t ≤ len t := ⟨hlen, le_refl _, le_refl _⟩
    have e : applyCall ms (Call.append text) =
        { ms with overlays :=
            ms.overlays ++ [{ span := { Pos := len t, End := len t }, text := text }] } := by
      simp [applyCall, Append, ht]
    rw [e]; exact ⟨ht, happend _ text hr⟩
  | deleteRange r =>
    cases hval : isValidRange r (len ms.initialText) with
    | false =>
      have e : applyCall ms (Call.deleteRange r) = ms := by
        simp [applyCall, DeleteRange, hval]
      rw [e]; exact ⟨ht, hov⟩
    | true =>
      have hr := (isValidRange_eq_true _ _).1 hval
      rw [ht] at hr
      have e : applyCall ms (Call.deleteRange r) =
          { ms with overlays := ms.overlays ++ [{ span := r, text := [] }] } := by
        simp [applyCall, DeleteRange, ReplaceRange, hval]
      rw [e]; exact ⟨ht, happend r [] hr⟩

theorem foldl_applyCall_invariant (t : GoString) :
    ∀ (calls : List Call) (ms : MutableString),
      (ms.initialText = t ∧
        ∀ o ∈ ms.overlays, 0 ≤ o.span.Pos ∧ o.span.Pos ≤ o.span.End ∧ o.span.End ≤ len t) →
      (calls.foldl applyCall ms).initialText = t ∧
        ∀ o ∈ (calls.foldl applyCall ms).overlays,
          0 ≤ o.span.Pos ∧ o.span.Pos ≤ o.span.End ∧ o.span.End ≤ len t := by
  intro calls
  induction calls with
  | nil => intro ms h; exact h
  | cons c rest ih =>
    intro ms h
    exact ih (applyCall ms c) (applyCall_invariant t ms c h)

/-- Every state reached from `NewMutableString(t)` keeps the text `t` and holds only spans
with `0 ≤ Pos ≤ End ≤ len(t)`, the length in bytes. -/
theorem runCalls_invariant (t : GoString) (calls : List Call) :
    (runCalls t calls).initialText = t ∧
      ∀ o ∈ (runCalls t calls).overlays,
        0 ≤ o.span.Pos ∧ o.span.Pos ≤ o.span.End ∧ o.span.End ≤ len t :=
  foldl_applyCall_invariant t calls (NewMutableString t)
    ⟨rfl, fun o ho => by cases ho⟩

/-- On a text whose byte length equals its number of codepoints, `Commit` on a reached
state ends in `nil` or in the overlap error: every slice stays inside the text. -/
theorem Commit_reachable_single_byte (sortFn : List overlay → List overlay)
    (hs : SortsByStart sortFn) (spare : Nat → Nat) (t : GoString)
    (hbytes : len t = (runeCount t : Int)) (calls : List Call) :
    (Commit sortFn spare (runCalls t calls)).1 = Status.ok ∨
    (Commit sortFn spare (runCalls t calls)).1 = Status.error "ranges overlap" := by
  obtain ⟨ht, hov⟩ := runCalls_invariant t calls
  have hv : ∀ o ∈ sortFn (runCalls t calls).overlays,
      validSpan (runeCount (runCalls t calls).initialText) o := by
    intro o ho
    have := hov o (((hs _).1.mem_iff).1 ho)
    rw [ht]
    unfold validSpan
    omega
  rw [Commit_of_valid sortFn spare _ hv]
  by_cases hc : List.Chain' noOverlap (sortFn (runCalls t calls).overlays)
  · rw [if_pos hc]; exact Or.inl rfl
  · rw [if_neg hc]; exact Or.inr rfl

/-- C15 at its failing input: `NewMutableString("é")` followed by `Append("!")` is a
reached state holding the span `[2, 2)` on a text of one codepoint, so `Commit` asks for
`rawText[0:2]` with `len(rawText) = 1` and the bound `Pos ≤ len(rawText)` is broken: with
no spare capacity the call panics, with the 32-rune buffer it reads behind the text and
returns `nil` with a NUL in the text.  On twenty "é" followed by `Append("!")` the span is
`[40, 40)` and the call panics with either capacity. -/
theorem Commit_reachable_out_of_range :
    runCalls (str "é") [Call.append (str "!")] =
      { initialText := str "é", overlays := [⟨⟨2, 2⟩, str "!"⟩] } ∧
    ((decode (str "é")).length : Int) = 1 ∧
    ¬ ((0 : Int) + (2 - 0) ≤ ((decode (str "é")).length : Int)) ∧
    (Commit insertionSortByStart exactCap
      (runCalls (str "é") [Call.append (str "!")])).1 = Status.fault ∧
    Commit insertionSortByStart bufCap (runCalls (str "é") [Call.append (str "!")]) =
      (Status.ok, { initialText := str "é\x00!", overlays := [] }) ∧
    (Commit insertionSortByStart exactCap
      (runCalls (str "éééééééééééééééééééé") [Call.append (str "!")])).1 = Status.fault ∧
    (Commit insertionSortByStart bufCap
      (runCalls (str "éééééééééééééééééééé") [Call.append (str "!")])).1 = Status.fault := by
  decide

/-! ## Order of the queue, equal starts, lengths -/

/-- C16: when the pending list, all spans valid, holds at two different places overlays
with the same `Pos` and both of non-zero width, `Commit` returns the overlap error (and
keeps the text) for every arrangement the sort can produce, that is for every permutation
of the list in ascending `Pos`, however equal starts are ordered. -/
theorem Commit_equal_starts (sortFn : List overlay → List overlay) (spare : Nat → Nat)
    (ms : MutableString)
    (hperm : (sortFn ms.overlays).Perm ms.overlays)
    (_hsorted : (sortFn ms.overlays).Sorted byStartIndex)
    (hv : ∀ o ∈ ms.overlays, validSpan (runeCount ms.initialText) o)
    (heq : ∃ i j, ∃ (_ : i < j) (hj : j < ms.overlays.length),
      (ms.overlays[i]).span.Pos = (ms.overlays[j]).span.Pos ∧
      (ms.overlays[i]).span.Pos < (ms.overlays[i]).span.End ∧
      (ms.overlays[j]).span.Pos < (ms.overlays[j]).span.End) :
    (Commit sortFn spare ms).1 = Status.error "ranges overlap" ∧
    (Commit sortFn spare ms).2.initialText = ms.initialText := by
  have hv2 : ∀ o ∈ sortFn ms.overlays, validSpan (runeCount ms.initialText) o :=
    fun o ho => hv o ((hperm.mem_iff).1 ho)
  have hno : ¬ List.Chain' noOverlap (sortFn ms.overlays) := by
    intro hc
    have hp := (chain'_noOverlap_iff_pairwise _ _ hv2).1 hc
    have hsym : List.Pairwise (fun a b => noOverlap a b ∨ noOverlap b a) (sortFn ms.overlays) :=
      hp.imp (fun h => Or.inl h)
    have hl : List.Pairwise (fun a b => noOverlap a b ∨ noOverlap b a) ms.overlays :=
      (List.Perm.pairwise_iff (fun h => Or.symm h) hperm).1 hsym
    obtain ⟨i, j, hij, hj, h1, h2, h3⟩ := heq
    have := List.pairwise_iff_getElem.1 hl i j (by omega) hj hij
    unfold noOverlap at this
    omega
  rw [Commit_of_valid sortFn spare ms hv2, if_neg hno]
  exact ⟨rfl, rfl⟩

theorem Commit_equal_starts_witness :
    (Commit insertionSortByStart exactCap
      { initialText := str "hello world",
        overlays := [⟨⟨0, 5⟩, str "hi"⟩, ⟨⟨6, 11⟩, str "planet"⟩, ⟨⟨0, 3⟩, str "yo"⟩] }).1 =
      Status.error "ranges overlap" :=
  (Commit_equal_starts insertionSortByStart exactCap
    { initialText := str "hello world",
      overlays := [⟨⟨0, 5⟩, str "hi"⟩, ⟨⟨6, 11⟩, str "planet"⟩, ⟨⟨0, 3⟩, str "yo"⟩] }
    (insertionSortByStart_sorts _).1 (insertionSortByStart_sorts _).2 (by decide)
    ⟨0, 2, by decide, by decide, by decide, by decide, by decide⟩).1

/-- C17: whether a mutation call succeeds depends on its range and on the current text
only, never on what is already queued: for any two pending lists on the same text,
`ReplaceRange(r, text)` gives the same result on both, and so do `Insert`, `DeleteRange`
and `Append`. -/
theorem validation_ignores_pending (t : GoString) (r : Range) (pos : Int) (text : GoString)
    (L1 L2 : List overlay) :
    ((ReplaceRange { initialText := t, overlays := L1 } r text).1 = Status.ok ↔
      (ReplaceRange { initialText := t, overlays := L2 } r text).1 = Status.ok) ∧
    (ReplaceRange { initialText := t, overlays := L1 } r text).1 =
      (ReplaceRange { initialText := t, overlays := L2 } r text).1 ∧
    (Insert { initialText := t, overlays := L1 } pos text).1 =
      (Insert { initialText := t, overlays := L2 } pos text).1 ∧
    (DeleteRange { initialText := t, overlays := L1 } r).1 =
      (DeleteRange { initialText := t, overlays := L2 } r).1 ∧
    (Append { initialText := t, overlays := L1 } text).1 =
      (Append { initialText := t, overlays := L2 } text).1 ∧
    ((ReplaceRange { initialText := t, overlays := L1 } r text).1 = Status.ok ↔
      isValidRange r (len t) = true) := by
  cases h : isValidRange r (len t) <;>
  cases h2 : isValidRange { Pos := pos, End := pos } (len t) <;>
  simp [ReplaceRange, Insert, DeleteRange, Append, h, h2]

/-- With pairwise distinct starts, two pending lists holding the same overlays are sorted
into the same sequence. -/
theorem sort_eq_of_perm (sortFn : List overlay → List overlay) (hs : SortsByStart sortFn)
    (l1 l2 : List overlay) (hperm : l1.Perm l2)
    (hd : l1.Pairwise (fun a b => a.span.Pos ≠ b.span.Pos)) :
    sortFn l1 = sortFn l2 := by
  have hp12 : (sortFn l1).Perm (sortFn l2) :=
    ((hs l1).1.trans hperm).trans (hs l2).1.symm
  have hd1 : (sortFn l1).Pairwise (fun a b => a.span.Pos ≠ b.span.Pos) :=
    (List.Perm.pairwise_iff (fun h => Ne.symm h) (hs l1).1).2 hd
  have hd2 : (sortFn l2).Pairwise (fun a b => a.span.Pos ≠ b.span.Pos) :=
    (List.Perm.pairwise_iff (fun h => Ne.symm h) hp12).1 hd1
  have strict : ∀ l : List overlay, l.Sorted byStartIndex →
      l.Pairwise (fun a b => a.span.Pos ≠ b.span.Pos) →
      l.Sorted (fun a b => a.span.Pos < b.span.Pos) := by
    intro l hle hne
    exact List.Pairwise.imp₂ (fun a b (h1 : byStartIndex a b) h2 => by
      unfold byStartIndex at h1
      omega) hle hne
  haveI : IsAntisymm overlay (fun a b => a.span.Pos < b.span.Pos) :=
    ⟨fun a b h1 h2 => absurd h1 (by omega)⟩
  exact List.eq_of_perm_of_sorted hp12 (strict _ (hs l1).2 hd1) (strict _ (hs l2).2 hd2)

/-- C18: for two pending lists on the same text that are permutations of each other, with
all spans valid and pairwise distinct starts, `Commit` returns the same result on both,
`nil` or the overlap error and nothing else, and leaves the same state, so on success
the same current text. -/
theorem Commit_order_independent (sortFn : List overlay → List overlay)
    (hs : SortsByStart sortFn) (spare : Nat → Nat) (t : GoString) (l1 l2 : List overlay)
    (hperm : l1.Perm l2)
    (hv : ∀ o ∈ l1, validSpan (runeCount t) o)
    (hd : l1.Pairwise (fun a b => a.span.Pos ≠ b.span.Pos)) :
    (Commit sortFn spare { initialText := t, overlays := l1 }).1 =
      (Commit sortFn spare { initialText := t, overlays := l2 }).1 ∧
    ((Commit sortFn spare { initialText := t, overlays := l1 }).1 = Status.ok ∨
      (Commit sortFn spare { initialText := t, overlays := l1 }).1 =
        Status.error "ranges overlap") ∧
    ((Commit sortFn spare { initialText := t, overlays := l1 }).1 = Status.ok →
      (Commit sortFn spare { initialText := t, overlays := l1 }).2.initialText =
        (Commit sortFn spare { initialText := t, overlays := l2 }).2.initialText) ∧
    Commit sortFn spare { initialText := t, overlays := l1 } =
      Commit sortFn spare { initialText := t, overlays := l2 } := by
  have hsort := sort_eq_of_perm sortFn hs l1 l2 hperm hd
  have heq : Commit sortFn spare { initialText := t, overlays := l1 } =
      Commit sortFn spare { initialText := t, overlays := l2 } := by
    simp only [Commit, hsort]
  have hv2 : ∀ o ∈ sortFn ({ initialText := t, overlays := l1 } : MutableString).overlays,
      validSpan (runeCount ({ initialText := t, overlays := l1 } : MutableString).initialText)
        o :=
    fun o ho => hv o (((hs l1).1.mem_iff).1 ho)
  have hres : (Commit sortFn spare { initialText := t, overlays := l1 }).1 = Status.ok ∨
      (Commit sortFn spare { initialText := t, overlays := l1 }).1 =
        Status.error "ranges overlap" := by
    rw [Commit_of_valid sortFn spare _ hv2]
    by_cases hc : List.Chain' noOverlap
        (sortFn ({ initialText := t, overlays := l1 } : MutableString).overlays)
    · rw [if_pos hc]; exact Or.inl rfl
    · rw [if_neg hc]; exact Or.inr rfl
  exact ⟨by rw [heq], hres, fun _ => by rw [heq], heq⟩

theorem Commit_order_independent_witness :
    Commit insertionSortByStart exactCap
        { initialText := str "hello world",
          overlays := [⟨⟨0, 5⟩, str "hi"⟩, ⟨⟨6, 11⟩, str "planet"⟩] } =
      Commit insertionSortByStart exactCap
        { initialText := str "hello world",
          overlays := [⟨⟨6, 11⟩, str "planet"⟩, ⟨⟨0, 5⟩, str "hi"⟩] } ∧
    Commit insertionSortByStart exactCap
        { initialText := str "hello world",
          overlays := [⟨⟨0, 5⟩, str "hi"⟩, ⟨⟨6, 11⟩, str "planet"⟩] } =
      (Status.ok, { initialText := str "hi planet", overlays := [] }) :=
  ⟨(Commit_order_independent insertionSortByStart insertionSortByStart_sorts exactCap
      (str "hello world")
      [⟨⟨0, 5⟩, str "hi"⟩, ⟨⟨6, 11⟩, str "planet"⟩]
      [⟨⟨6, 11⟩, str "planet"⟩, ⟨⟨0, 5⟩, str "hi"⟩]
      (List.Perm.swap _ _ _) (by decide) (by decide)).2.2.2,
   by decide⟩

theorem slice_scalar (t : GoString) (a b : Nat) :
    ∀ r ∈ ((decode t).take b).drop a, isScalar r :=
  fun r hr => decode_scalar t r (List.mem_of_mem_take (List.mem_of_mem_drop hr))

theorem textSlice_wellFormed (t : GoString) (a b : Int) : WellFormed (textSlice t a b) :=
  wellFormed_encode _ (slice_scalar t a.toNat b.toNat)

theorem textSlice_length (t : GoString) (a b : Int)
    (h0 : 0 ≤ a) (h1 : a ≤ b) (h2 : b ≤ (runeCount t : Int)) :
    (runeCount (textSlice t a b) : Int) = b - a := by
  have hlen : runeCount t = (decode t).length := rfl
  unfold textSlice
  rw [runeCount_encode _ (slice_scalar t a.toNat b.toNat)]
  simp only [List.length_drop, List.length_take]
  omega

/-- Codepoints of the text spliced from cursor `p.End` on, the overlay texts being
well-formed: what is left of the text behind the cursor, less the replaced spans, plus
the replacements. -/
theorem splice_length_from (t : GoString) :
    ∀ (l : List overlay) (p : overlay),
      validSpan (runeCount t) p → (∀ o ∈ l, validSpan (runeCount t) o) →
      (∀ o ∈ l, WellFormed o.text) → List.Chain noOverlap p l →
      (runeCount (List.foldr (fun piece rest => piece ++ rest)
          (textSlice t ((l.map fun o => o.span.End).getLastD p.span.End) (runeCount t))
          (List.zipWith (fun start o => textSlice t start o.span.Pos ++ o.text)
            (p.span.End :: l.map fun o => o.span.End) l)) : Int) =
        (runeCount t : Int) - p.span.End
          - (l.map fun o => o.span.End - o.span.Pos).sum
          + (l.map fun o => (runeCount o.text : Int)).sum := by
  intro l
  induction l with
  | nil =>
    intro p hp _ _ _
    obtain ⟨h0, h1, h2⟩ := hp
    simp only [List.map_nil, List.getLastD_nil, List.zipWith_nil_right, List.foldr_nil,
      List.sum_nil]
    rw [textSlice_length t _ _ (by omega) h2 (le_refl _)]
    omega
  | cons o rest ih =>
    intro p hp hl hw hc
    obtain ⟨hpo, hcr⟩ := List.chain_cons.1 hc
    have ho : validSpan (runeCount t) o := hl o (List.mem_cons_self _ _)
    have hrest : ∀ x ∈ rest, validSpan (runeCount t) x :=
      fun x hx => hl x (List.mem_cons_of_mem _ hx)
    have hwo : WellFormed o.text := hw o (List.mem_cons_self _ _)
    have hwrest : ∀ x ∈ rest, WellFormed x.text :=
      fun x hx => hw x (List.mem_cons_of_mem _ hx)
    have hih := ih o ho hrest hwrest hcr
    obtain ⟨hp0, hp1, hp2⟩ := hp
    obtain ⟨ho0, ho1, ho2⟩ := ho
    unfold noOverlap at hpo
    have hslice := textSlice_wellFormed t p.span.End o.span.Pos
    simp only [List.map_cons, List.getLastD_cons, List.zipWith_cons_cons, List.foldr_cons,
      List.sum_cons]
    rw [runeCount_append _ _ (wellFormed_append _ _ hslice hwo),
      runeCount_append _ _ hslice]
    simp only [Nat.cast_add]
    rw [hih, textSlice_length t _ _ (by omega) hpo (by omega)]
    omega

/-- C19 as stated fails: on the empty text, `Insert(0, "\xc3")` and `Insert(0, "\xa9")`
queue two valid spans whose texts hold one codepoint each; `Commit` returns `nil` and
writes the bytes `C3 A9`, the text "é" of one codepoint, where the formula gives
`0 - 0 + (1 + 1) = 2`. -/
theorem Commit_length_ill_formed :
    runCalls [] [Call.insert 0 [0xC3], Call.insert 0 [0xA9]] =
      { initialText := [], overlays := [⟨⟨0, 0⟩, [0xC3]⟩, ⟨⟨0, 0⟩, [0xA9]⟩] } ∧
    (∀ o ∈ [(⟨⟨0, 0⟩, [0xC3]⟩ : overlay), ⟨⟨0, 0⟩, [0xA9]⟩], validSpan (runeCount []) o) ∧
    Commit insertionSortByStart exactCap
        { initialText := [], overlays := [⟨⟨0, 0⟩, [0xC3]⟩, ⟨⟨0, 0⟩, [0xA9]⟩] } =
      (Status.ok, { initialText := str "é", overlays := [] }) ∧
    (runeCount (Commit insertionSortByStart exactCap
        { initialText := [],
          overlays := [⟨⟨0, 0⟩, [0xC3]⟩, ⟨⟨0, 0⟩, [0xA9]⟩] }).2.initialText : Int) = 1 ∧
    (runeCount [] : Int)
        - ([(⟨⟨0, 0⟩, [0xC3]⟩ : overlay), ⟨⟨0, 0⟩, [0xA9]⟩].map
            fun o => o.span.End - o.span.Pos).sum
        + ([(⟨⟨0, 0⟩, [0xC3]⟩ : overlay), ⟨⟨0, 0⟩, [0xA9]⟩].map
            fun o => (runeCount o.text : Int)).sum = 2 := by
  decide

/-- C19, amended: with every pending span valid, every overlay text well-formed UTF-8 and
`Commit` returning `nil`, the number of codepoints of the new text is the number of
codepoints of the old text, minus the sum over the pending overlays of
`span.End - span.Pos`, plus the sum over them of the number of codepoints of
`overlay.text`. -/
theorem Commit_length (sortFn : List overlay → List overlay) (hs : SortsByStart sortFn)
    (spare : Nat → Nat) (ms : MutableString)
    (hv : ∀ o ∈ ms.overlays, validSpan (runeCount ms.initialText) o)
    (hw : ∀ o ∈ ms.overlays, WellFormed o.text)
    (h : (Commit sortFn spare ms).1 = Status.ok) :
    (runeCount (Commit sortFn spare ms).2.initialText : Int) =
      (runeCount ms.initialText : Int)
        - (ms.overlays.map fun o => o.span.End - o.span.Pos).sum
        + (ms.overlays.map fun o => (runeCount o.text : Int)).sum := by
  have hperm := (hs ms.overlays).1
  have hv2 : ∀ o ∈ sortFn ms.overlays, validSpan (runeCount ms.initialText) o :=
    fun o ho => hv o ((hperm.mem_iff).1 ho)
  have hw2 : ∀ o ∈ sortFn ms.overlays, WellFormed o.text :=
    fun o ho => hw o ((hperm.mem_iff).1 ho)
  have hC := Commit_of_valid sortFn spare ms hv2
  by_cases hc : List.Chain' noOverlap (sortFn ms.overlays)
  · rw [if_pos hc] at hC
    rw [hC]
    have hsum1 : (ms.overlays.map fun o => o.span.End - o.span.Pos).sum =
        ((sortFn ms.overlays).map fun o => o.span.End - o.span.Pos).sum :=
      ((hperm.map _).sum_eq).symm
    have hsum2 : (ms.overlays.map fun o => (runeCount o.text : Int)).sum =
        ((sortFn ms.overlays).map fun o => (runeCount o.text : Int)).sum :=
      ((hperm.map _).sum_eq).symm
    rw [hsum1, hsum2]
    have hzero : validSpan (runeCount ms.initialText) ⟨⟨0, 0⟩, []⟩ := by
      unfold validSpan
      simp
    have hchain : List.Chain noOverlap ⟨⟨0, 0⟩, []⟩ (sortFn ms.overlays) := by
      cases hl : sortFn ms.overlays with
      | nil => exact List.Chain.nil
      | cons o rest =>
        rw [hl] at hc hv2
        exact List.Chain.cons (hv2 o (List.mem_cons_self _ _)).1 hc
    have hlen := splice_length_from ms.initialText (sortFn ms.overlays) ⟨⟨0, 0⟩, []⟩
      hzero hv2 hw2 hchain
    simp only [sub_zero] at hlen
    simp only [spliceSpec, gapStarts, List.getLastD_cons]
    exact hlen
  · rw [if_neg hc] at hC
    rw [hC] at h
    cases h

theorem Commit_length_witness :
    (Commit insertionSortByStart exactCap
      { initialText := str "héllo wörld",
        overlays := [⟨⟨6, 11⟩, str "plänet"⟩, ⟨⟨0, 5⟩, str "hi"⟩] }).1 = Status.ok ∧
    (runeCount (Commit insertionSortByStart exactCap
      { initialText := str "héllo wörld",
        overlays := [⟨⟨6, 11⟩, str "plänet"⟩, ⟨⟨0, 5⟩, str "hi"⟩] }).2.initialText : Int) =
      (runeCount (str "héllo wörld") : Int)
        - ([(⟨⟨6, 11⟩, str "plänet"⟩ : overlay), ⟨⟨0, 5⟩, str "hi"⟩].map
            fun o => o.span.End - o.span.Pos).sum
        + ([(⟨⟨6, 11⟩, str "plänet"⟩ : overlay), ⟨⟨0, 5⟩, str "hi"⟩].map
            fun o => (runeCount o.text : Int)).sum ∧
    (runeCount (str "héllo wörld") : Int)
        - ([(⟨⟨6, 11⟩, str "plänet"⟩ : overlay), ⟨⟨0, 5⟩, str "hi"⟩].map
            fun o => o.span.End - o.span.Pos).sum
        + ([(⟨⟨6, 11⟩, str "plänet"⟩ : overlay), ⟨⟨0, 5⟩, str "hi"⟩].map
            fun o => (runeCount o.text : Int)).sum = 9 :=
  ⟨by decide,
   Commit_length insertionSortByStart insertionSortByStart_sorts exactCap
     { initialText := str "héllo wörld",
       overlays := [⟨⟨6, 11⟩, str "plänet"⟩, ⟨⟨0, 5⟩, str "hi"⟩] }
     (by decide)
     (fun o ho => by
       rcases List.mem_cons.1 ho with rfl | ho
       · exact str_wellFormed "plänet"
       · rcases List.mem_singleton.1 ho with rfl
         exact str_wellFormed "hi")
     (by decide),
   by decide⟩

end MutableStringGo
